import Mathlib

/-!
Shallow embedding of the I/O-pin slot-assignment materializer of
`src/ppl/src/HungarianMatching.cpp` (class `ppl::HungarianMatching`), together
with the matrix builders for ungrouped pins and pin groups.  Machine `int`
values are modelled as `Int`; the sentinel `hungarian_fail` is
`std::numeric_limits<int>::max()`.  Fallible memory accesses
(`std::vector::operator[]` out of bounds, negative indices) are modelled by
returning `none`: a `some` result certifies that every access performed by the
C++ code was in bounds.  External collaborators (the HPWL cost oracle, the
mirror-reflection transform, the netlist pin table, the mirrored-pin map) are
abstract function fields of the machine state, per the spec's external
interfaces section.
-/

namespace PPL

/-- Models `odb::Point`: a 2D coordinate with integer components. -/
structure Point where
  x : Int
  y : Int
deriving DecidableEq

/-- Models `ppl::Slot` as used by `HungarianMatching`: position, routing layer,
and the two mutable flags `blocked` and `used`. -/
structure Slot where
  pos : Point
  layer : Int
  blocked : Bool
  used : Bool
deriving DecidableEq

/-- Models `ppl::IOPin` as used by `HungarianMatching`: the group-membership
flag, the placed flag, the assigned position and layer, and the opaque
`dbBTerm*` handle (modelled as a `Nat`) used to look up mirror partners. -/
structure IOPin where
  inGroup : Bool
  placed : Bool
  pos : Point
  layer : Int
  bterm : Nat
deriving DecidableEq

/-- Models `ppl::Edge`. -/
inductive Edge where
  | top
  | bottom
  | left
  | right
deriving DecidableEq

/-- Modelled from the spec: the sentinel `hungarian_fail` is declared in
`HungarianMatching.h` (not under `src/`); the spec fixes it to the maximum
representable integer, and `HungarianMatching.cpp` itself initializes matrix
cells with `std::numeric_limits<int>::max()` (32-bit `int`). -/
def hungarian_fail : Int := 2147483647

/-- The immutable context of one `HungarianMatching` object: the fields set by
the constructor from the `Section`, plus the solved `hungarian_matrix_` and
`assignment_` and the abstract external collaborators.  `mirror_map` models
the `MirroredPins` map (`dbBTerm*` to partner `dbBTerm*`), `pin_idx_of_bterm`
models `Netlist::getIoPinIdx`, `reflect` models `Core::getMirroredPosition`,
and `hpwl` models `Netlist::computeIONetHPWL`. -/
structure HM where
  pins : List IOPin
  slots : List Slot
  pin_indices : List Nat
  pin_groups : List (List Nat × Bool)
  begin_slot : Nat
  end_slot : Nat
  non_blocked_slots : Nat
  num_pin_groups : Nat
  group_slots : Nat
  hungarian_matrix : List (List Int)
  assignment : List Nat
  edge : Edge
  mirror_map : Nat → Option Nat
  pin_idx_of_bterm : Nat → Nat
  reflect : Point → Point
  hpwl : Nat → Point → Int

/-- The mutable state threaded through the materializers: the slot vector and
pin table (mutated in place by the C++ code), the `assignment` output vector
(`out`), the indices of pins for which warning PPL-33 was emitted (`warns`),
whether the fatal error PPL-82 was raised (`fatal`; `Logger::error` throws, so
processing stops there), and the `non_blocked_slots_` counter as decremented
by the grouped materializer (`nbs`). -/
structure St where
  slots : List Slot
  pins : List IOPin
  out : List IOPin
  warns : List Nat
  fatal : Bool
  nbs : Int
deriving DecidableEq

/-- The initial state of a materializer call on `hm`. -/
def initSt (hm : HM) : St :=
  { slots := hm.slots, pins := hm.pins, out := [], warns := [], fatal := false
    nbs := (hm.non_blocked_slots : Int) }

/-- Fuel-indexed body of the blocked-slot skip loop of
`getFinalAssignment` (lines 116-117):
`while (slots_[slot_index].blocked && slot_index < slots_.size()) slot_index++;`.
The subscript is evaluated before the bounds test, so reaching an index that
is not smaller than the vector size dereferences past the end: that undefined
access is modelled as `none`.  The fuel counts the slots remaining up to and
including the one-past-the-end access and is never exhausted earlier. -/
def skipBlockedF (slots : List Slot) : Nat → Nat → Option Nat
  | _, 0 => none
  | i, fuel + 1 =>
    match slots[i]? with
    | none => none
    | some s => if s.blocked then skipBlockedF slots (i + 1) fuel else some i

/-- The blocked-slot skip loop of `getFinalAssignment`, entered at index `i`. -/
def skipBlocked (slots : List Slot) (i : Nat) : Option Nat :=
  skipBlockedF slots i (slots.length + 1 - i)

/-- Fuel-indexed body of the blocked-slot skip loop of
`getAssignmentForGroups` (lines 256-257), which advances by `group_size_`
per blocked collision:
`while (slots_[slot_index].blocked && slot_index < slots_.size()) slot_index += group_size_;`.
As in `skipBlockedF`, the subscript is evaluated before the bounds test, so an
index past the end is an undefined access, modelled as `none`; a negative
index (possible since `slot_index` and `group_size_` are `int`) likewise.  A
non-positive stride with a blocked slot would loop forever, also `none`. -/
def skipStrideF (slots : List Slot) (gs : Int) : Int → Nat → Option Int
  | _, 0 => none
  | i, fuel + 1 =>
    if i < 0 then none
    else
      match slots[i.toNat]? with
      | none => none
      | some s =>
        if s.blocked then
          if 0 < gs then skipStrideF slots gs (i + gs) fuel else none
        else some i

/-- The blocked-slot skip loop of `getAssignmentForGroups` with stride `gs`,
entered at index `i`. -/
def skipStride (slots : List Slot) (gs : Int) (i : Int) : Option Int :=
  skipStrideF slots gs i (slots.length + 1 - i.toNat)

/-- Index of the `k`-th (0-based) unblocked slot at or after index `i`:
the slot at which the row-scanning loop of `getFinalAssignment` stands when
it has consumed `k` non-matching rows after entering at `i`. -/
def nthUnb (slots : List Slot) (i : Nat) : Nat → Option Nat
  | 0 => skipBlocked slots i
  | k + 1 =>
    match skipBlocked slots i with
    | none => none
    | some j => nthUnb slots (j + 1) k

/-- First row index `row` with `assignment_[row] == col`, scanning `rem` rows
starting at `row`; `none` if no row matches or an access is out of bounds.
This is the row selected by the `assignment_[row] != col` test of the
materializer loops. -/
def firstMatch (assignment : List Nat) (col : Nat) : Nat → Nat → Option Nat
  | _, 0 => none
  | row, rem + 1 =>
    match assignment[row]? with
    | none => none
    | some a => if a = col then some row else firstMatch assignment col (row + 1) rem

/-- The slot index at which the ungrouped materializer places the pin solved
to column `col`: the first row matching `col` determines how many unblocked
slots the scan has passed. -/
def targetSlot (hm : HM) (col : Nat) : Option Nat :=
  match firstMatch hm.assignment col 0 hm.non_blocked_slots with
  | none => none
  | some r => nthUnb hm.slots hm.begin_slot r

/-- Models `HungarianMatching::getSlotIdxByPosition` (lines 289-301): linear
scan for the first slot whose position and layer exactly equal the query;
`none` models the C++ return value `-1`. -/
def getSlotIdxByPosition : List Slot → Point → Int → Option Nat
  | [], _, _ => none
  | s :: rest, p, lay =>
    if s.pos = p ∧ s.layer = lay then some 0
    else (getSlotIdxByPosition rest p lay).map (fun k => k + 1)

/-- The state change of lines 137-141 of `getFinalAssignment`: commit pin
`pinIdx` (current value `pin`) to slot `j` (current value `slot`): set the
pin's position and layer from the slot, mark it placed, push it onto the
output assignment vector, and mark the slot used. -/
def placeAt (st : St) (pinIdx : Nat) (pin : IOPin) (j : Nat) (slot : Slot) : St :=
  let pin' : IOPin := { pin with pos := slot.pos, layer := slot.layer, placed := true }
  { st with
    pins := st.pins.set pinIdx pin'
    slots := st.slots.set j { slot with used := true }
    out := st.out ++ [pin'] }

/-- The pin record as committed by lines 137-139: position and layer taken
from the slot, placed flag set. -/
def placedPin (pin : IOPin) (slot : Slot) : IOPin :=
  { pin with pos := slot.pos, layer := slot.layer, placed := true }

/-- The state after the ungrouped materializer commits pin `pinIdx` (current
value `pin`, matched cell cost `cell`) to slot `j` (current value `slot`),
including the PPL-33 warning when the cost is the sentinel. -/
def placeResult (st : St) (pinIdx : Nat) (pin : IOPin) (j : Nat) (slot : Slot)
    (cell : Int) : St :=
  { st with
    warns := if cell = hungarian_fail then st.warns ++ [pinIdx] else st.warns
    pins := st.pins.set pinIdx (placedPin pin slot)
    slots := st.slots.set j { slot with used := true }
    out := st.out ++ [placedPin pin slot] }

/-- The mirror-partner record as committed by lines 149-151: position set to
the reflected position, layer copied from the primary pin's slot, placed. -/
def mirrorPin (mpin : IOPin) (mpos : Point) (lay : Int) : IOPin :=
  { mpin with pos := mpos, layer := lay, placed := true }

/-- The state after a successful mirror-mode commit of pin `pinIdx`: the pin
placed at slot `j`, the partner (pin `mIdx`, current value `mpin`) placed at
the reflected position `mpos`, slot `j` and the looked-up slot `k2` (current
value `sk`) marked used, and both pins pushed onto the output vector. -/
def mirrorResultOk (st : St) (pinIdx : Nat) (pin : IOPin) (j : Nat) (slot : Slot)
    (cell : Int) (mIdx : Nat) (mpin : IOPin) (mpos : Point) (k2 : Nat) (sk : Slot) : St :=
  { st with
    warns := if cell = hungarian_fail then st.warns ++ [pinIdx] else st.warns
    pins := (st.pins.set pinIdx (placedPin pin slot)).set mIdx (mirrorPin mpin mpos slot.layer)
    slots := (st.slots.set j { slot with used := true }).set k2 { sk with used := true }
    out := st.out ++ [placedPin pin slot, mirrorPin mpin mpos slot.layer] }

/-- The state at the moment fatal error PPL-82 is raised: the pin and its
mirror partner are already committed and pushed, slot `j` is already used,
but no slot is used for the partner; the exception aborts the walk. -/
def mirrorResultFatal (st : St) (pinIdx : Nat) (pin : IOPin) (j : Nat) (slot : Slot)
    (cell : Int) (mIdx : Nat) (mpin : IOPin) (mpos : Point) : St :=
  { st with
    warns := if cell = hungarian_fail then st.warns ++ [pinIdx] else st.warns
    pins := (st.pins.set pinIdx (placedPin pin slot)).set mIdx (mirrorPin mpin mpos slot.layer)
    slots := st.slots.set j { slot with used := true }
    out := st.out ++ [placedPin pin slot, mirrorPin mpin mpos slot.layer]
    fatal := true }

/-- The inner row loop of `HungarianMatching::getFinalAssignment`
(lines 115-169) for one ungrouped pin `pinIdx` solved to column `col`.
`rem` is the number of rows still to scan (`rows - row`), `row` the current
row, `i` the current `slot_index`.  Per the C++ code: skip blocked slots;
on a non-matching row advance `slot_index` past the found slot; on the
matching row emit warning PPL-33 when the matched cost is the sentinel, then
skip the pin (mirror mode without a partner, or already placed) leaving
`slot_index` at the found slot, or place it; in mirror mode additionally
place the mirror partner at the reflected position, raise fatal error PPL-82
(which throws) when no slot has exactly that position and layer, and
otherwise mark the looked-up slot used; then break. -/
def rowLoop (hm : HM) (am : Bool) (pinIdx col : Nat) : Nat → Nat → Nat → St → Option St
  | 0, _, _, st => some st
  | rem + 1, row, i, st =>
    match skipBlocked st.slots i with
    | none => none
    | some j =>
      match hm.assignment[row]? with
      | none => none
      | some a =>
        if a ≠ col then rowLoop hm am pinIdx col rem (row + 1) (j + 1) st
        else
          match (hm.hungarian_matrix[row]?).bind (fun mrow => mrow[col]?) with
          | none => none
          | some cell =>
            let st1 := if cell = hungarian_fail then { st with warns := st.warns ++ [pinIdx] } else st
            match st1.pins[pinIdx]? with
            | none => none
            | some pin =>
              if (am && (hm.mirror_map pin.bterm).isNone) || pin.placed then
                rowLoop hm am pinIdx col rem (row + 1) j st1
              else
                match st1.slots[j]? with
                | none => none
                | some slot =>
                  let st2 := placeAt st1 pinIdx pin j slot
                  if am then
                    match hm.mirror_map pin.bterm with
                    | none => none
                    | some bt =>
                      let mIdx := hm.pin_idx_of_bterm bt
                      match st2.pins[mIdx]? with
                      | none => none
                      | some mpin =>
                        let mpos := hm.reflect slot.pos
                        let mpin' : IOPin :=
                          { mpin with pos := mpos, layer := slot.layer, placed := true }
                        let st3 :=
                          { st2 with pins := st2.pins.set mIdx mpin', out := st2.out ++ [mpin'] }
                        match getSlotIdxByPosition st3.slots mpos slot.layer with
                        | none => some { st3 with fatal := true }
                        | some k =>
                          match st3.slots[k]? with
                          | none => none
                          | some sk =>
                            some { st3 with slots := st3.slots.set k { sk with used := true } }
                  else some st2

/-- The outer pin loop of `HungarianMatching::getFinalAssignment`
(lines 110-172): walk `pin_indices_` in order, skip grouped pins, run the row
loop for each ungrouped pin, and advance the column counter only for
ungrouped pins.  A fatal error thrown inside the row loop propagates,
stopping the walk. -/
def pinLoop (hm : HM) (am : Bool) : List Nat → Nat → St → Option St
  | [], _, st => some st
  | idx :: rest, col, st =>
    match st.pins[idx]? with
    | none => none
    | some pin =>
      if pin.inGroup then pinLoop hm am rest col st
      else
        match rowLoop hm am idx col hm.non_blocked_slots 0 hm.begin_slot st with
        | none => none
        | some st' => if st'.fatal then some st' else pinLoop hm am rest (col + 1) st'

/-- Models `HungarianMatching::getFinalAssignment` (lines 103-173), run from
the state captured by the constructor, with `am` the `assign_mirrored`
argument. -/
def getFinalAssignment (hm : HM) (am : Bool) : Option St :=
  pinLoop hm am hm.pin_indices 0 (initSt hm)

/-- The pin loop of `getFinalAssignment` instrumented to also return the
column counter `col`, used to reason about a run split at a given pin; it
performs exactly the steps of `pinLoop`. -/
def pinLoopC (hm : HM) (am : Bool) : List Nat → Nat → St → Option (St × Nat)
  | [], col, st => some (st, col)
  | idx :: rest, col, st =>
    match st.pins[idx]? with
    | none => none
    | some pin =>
      if pin.inGroup then pinLoopC hm am rest col st
      else
        match rowLoop hm am idx col hm.non_blocked_slots 0 hm.begin_slot st with
        | none => none
        | some st' =>
          if st'.fatal then some (st', col) else pinLoopC hm am rest (col + 1) st'

/-- The inner column loop of `HungarianMatching::createMatrix` (lines 86-93):
walk `pin_indices_`, and for each pin that is not in a group append the cost
oracle's value at `(pin, p)`.  Grouped pins contribute no entry. -/
def rowCosts (hm : HM) (p : Point) : List Nat → Option (List Int)
  | [] => some []
  | idx :: rest =>
    match hm.pins[idx]? with
    | none => none
    | some pin =>
      match rowCosts hm p rest with
      | none => none
      | some tail => some (if pin.inGroup then tail else hm.hpwl idx p :: tail)

/-- One row of the ungrouped cost matrix for slot position `p`: the row is
resized to `num_io_pins_` cells holding `std::numeric_limits<int>::max()`
(line 84-85) and the leading cells are overwritten with the ungrouped pins'
costs, so the cells beyond the ungrouped count keep the sentinel. -/
def matrixRow (hm : HM) (p : Point) : Option (List Int) :=
  (rowCosts hm p hm.pin_indices).map
    (fun cs => cs ++ List.replicate (hm.pin_indices.length - cs.length) hungarian_fail)

/-- Fuel-indexed slot loop of `HungarianMatching::createMatrix`
(lines 78-95): `for (int i = begin_slot_; i <= end_slot_; ++i)`, skipping
blocked slots and appending one row per unblocked slot.  The fuel is
exactly the number of remaining loop iterations `end_slot_ + 1 - i`. -/
def createMatrixGo (hm : HM) : Nat → Nat → Option (List (List Int))
  | _, 0 => some []
  | i, fuel + 1 =>
    match hm.slots[i]? with
    | none => none
    | some s =>
      if s.blocked then createMatrixGo hm (i + 1) fuel
      else
        match matrixRow hm s.pos, createMatrixGo hm (i + 1) fuel with
        | some r, some rest => some (r :: rest)
        | _, _ => none

/-- Models `HungarianMatching::createMatrix` (lines 74-96).  The matrix is
resized to `non_blocked_slots_` rows up front (line 76) and the loop fills
rows `0, 1, …` for the unblocked slots in `[begin_slot_, end_slot_]`; filling
more rows than were allocated would index out of bounds (`none`), and if
fewer rows are filled the trailing allocated rows remain empty. -/
def createMatrix (hm : HM) : Option (List (List Int)) :=
  match createMatrixGo hm hm.begin_slot (hm.end_slot + 1 - hm.begin_slot) with
  | none => none
  | some rs =>
    if rs.length ≤ hm.non_blocked_slots then
      some (rs ++ List.replicate (hm.non_blocked_slots - rs.length) [])
    else none

/-- Whether pin `idx` exists in `pins` and is not in a group: the pins that
receive a column in the ungrouped pass. -/
def isUngrouped (pins : List IOPin) (idx : Nat) : Bool :=
  match pins[idx]? with
  | some p => !p.inGroup
  | none => false

/-- The ungrouped pins of the section's pin list, in input order. -/
def ungroupedIdxs (hm : HM) : List Nat :=
  hm.pin_indices.filter (isUngrouped hm.pins)

/-- The slot indices of the section range `[b, e]`, in ascending order. -/
def rangeIdxs (b e : Nat) : List Nat :=
  (List.range (e + 1 - b)).map (fun k => b + k)

/-- The blocked flag of slot `m`, when it exists. -/
def blockedAt (slots : List Slot) (m : Nat) : Option Bool :=
  (slots[m]?).map Slot.blocked

/-- The used flag of slot `m`, `false` when it does not exist. -/
def usedAt (slots : List Slot) (m : Nat) : Bool :=
  match slots[m]? with
  | some s => s.used
  | none => false

/-- The unblocked slot indices of the section range `[b, e]`, ascending. -/
def unblockedIn (slots : List Slot) (b e : Nat) : List Nat :=
  (rangeIdxs b e).filter (fun m => decide (blockedAt slots m = some false))

/-- The first loop of `HungarianMatching::createMatrixForGroups`
(lines 185-187): `group_size_` starts at `-1` (constructor) and is raised to
the pin count of every group of the section. -/
def computeGroupSize (groups : List (List Nat × Bool)) : Int :=
  groups.foldl (fun acc g => max (g.1.length : Int) acc) (-1)

/-- Fuel-indexed candidate block-start enumeration of
`createMatrixForGroups`: `for (int i = begin_slot_; i <= (end_slot_ -
group_size_ + 1); i += group_size_)` (lines 192-193 and 209-210).  The
`0 < gs` conjunct restates the guard under which the loop runs (line 189);
the fuel bounds the iteration count and is never exhausted first. -/
def blockStartsF (endS gs : Int) : Int → Nat → List Int
  | _, 0 => []
  | i, fuel + 1 =>
    if 0 < gs ∧ i ≤ endS - gs + 1 then i :: blockStartsF endS gs (i + gs) fuel
    else []

/-- The candidate block starts enumerated by `createMatrixForGroups`. -/
def blockStarts (endS gs i : Int) : List Int :=
  blockStartsF endS gs i ((endS + 1 - i).toNat + 1)

/-- The blocked-block test of `createMatrixForGroups` (lines 194-199 and
214-219): scan all `g` slots of the block starting at `i` and report whether
any is blocked; every access is performed, so a missing slot is `none`. -/
def blockBlocked (slots : List Slot) : Int → Nat → Option Bool
  | _, 0 => some false
  | i, g + 1 =>
    if i < 0 then none
    else
      match slots[i.toNat]? with
      | none => none
      | some s =>
        match blockBlocked slots (i + 1) g with
        | none => none
        | some b => some (s.blocked || b)

/-- The per-group cell accumulation of `createMatrixForGroups`
(lines 227-236): sum the members' costs at the anchor position, but on the
first member whose cost is the sentinel the cell becomes the sentinel and the
loop breaks, discarding the partial sum. -/
def groupCostAux (hpwl : Nat → Point → Int) (p : Point) : Int → List Nat → Int
  | acc, [] => acc
  | acc, m :: rest =>
    let c := hpwl m p
    if c = hungarian_fail then hungarian_fail else groupCostAux hpwl p (acc + c) rest

/-- The cost-matrix cell of a pin group anchored at position `p`. -/
def groupCost (hpwl : Nat → Point → Int) (p : Point) (members : List Nat) : Int :=
  groupCostAux hpwl p 0 members

/-- One row of the grouped cost matrix for anchor position `p`: the row is
resized to `num_pin_groups_` cells of the sentinel (lines 224-225) and the
leading cells are overwritten with the section's group costs; overrunning the
allocation indexes out of bounds. -/
def groupMatrixRow (hm : HM) (p : Point) : Option (List Int) :=
  let cs := hm.pin_groups.map (fun g => groupCost hm.hpwl p g.1)
  if cs.length ≤ hm.num_pin_groups then
    some (cs ++ List.replicate (hm.num_pin_groups - cs.length) hungarian_fail)
  else none

/-- The row-building loop of `createMatrixForGroups` (lines 209-241) over the
candidate block starts: read the anchor position, skip blocks containing any
blocked slot, and append one row per surviving block. -/
def groupRowsGo (hm : HM) (gs : Int) : List Int → Option (List (List Int))
  | [] => some []
  | i :: rest =>
    if i < 0 then none
    else
      match hm.slots[i.toNat]? with
      | none => none
      | some s =>
        match blockBlocked hm.slots i gs.toNat with
        | none => none
        | some true => groupRowsGo hm gs rest
        | some false =>
          match groupMatrixRow hm s.pos, groupRowsGo hm gs rest with
          | some r, some rs => some (r :: rs)
          | _, _ => none

/-- Models `HungarianMatching::createMatrixForGroups` (lines 183-243),
returning the built matrix, the resulting `group_slots_` count (the counting
loop of lines 192-203 and the filling loop of lines 209-241 filter the same
blocks, so `group_slots_` equals the number of rows built), and the computed
`group_size_`.  When `group_size_` is not positive the function leaves the
matrix and `group_slots_` untouched (lines 189, 242). -/
def createMatrixForGroups (hm : HM) : Option (List (List Int) × Nat × Int) :=
  let gs := computeGroupSize hm.pin_groups
  if 0 < gs then
    match groupRowsGo hm gs (blockStarts (hm.end_slot : Int) gs (hm.begin_slot : Int)) with
    | none => none
    | some rs => some (rs, rs.length, gs)
  else some (hm.hungarian_matrix, hm.group_slots, gs)

/-- Whether the member placement order is reversed: the edge is top or left
and the group's order flag is set (lines 263-265). -/
def revOrder (e : Edge) (ord : Bool) : Bool :=
  (decide (e = Edge.top ∨ e = Edge.left)) && ord

/-- The member-placement loop of `HungarianMatching::getAssignmentForGroups`
(lines 267-279): place each member of the group at `slot s + pin_cnt`, push it
onto the output vector, mark the slot used and blocked, decrement the
unblocked-slot counter when the slot is inside the section, and step
`pin_cnt` down (reversed order) or up.  `pin_cnt` is a C++ `int`, modelled as
`Int`; a negative slot index is an undefined access, `none`.  Group pins are
not marked placed by this code. -/
def memberLoop (hm : HM) (rev : Bool) (s : Int) : List Nat → Int → St → Option St
  | [], _, st => some st
  | pidx :: rest, cnt, st =>
    let j : Int := s + cnt
    if j < 0 then none
    else
      match st.slots[j.toNat]? with
      | none => none
      | some slot =>
        match st.pins[pidx]? with
        | none => none
        | some pin =>
          let pin' : IOPin := { pin with pos := slot.pos, layer := slot.layer }
          let st' : St :=
            { st with
              pins := st.pins.set pidx pin'
              out := st.out ++ [pin']
              slots := st.slots.set j.toNat { slot with used := true, blocked := true }
              nbs := if j ≤ (hm.end_slot : Int) then st.nbs - 1 else st.nbs }
          memberLoop hm rev s rest (if rev then cnt - 1 else cnt + 1) st'

/-- The inner row loop of `HungarianMatching::getAssignmentForGroups`
(lines 255-281) for the group `g` solved to column `col`: skip blocked slots
with stride `group_size_`, advance by `group_size_` on a non-matching row,
and on the matching row run the member loop and break. -/
def groupRowLoop (hm : HM) (gs : Int) (col : Nat) (g : List Nat × Bool) :
    Nat → Nat → Int → St → Option St
  | 0, _, _, st => some st
  | rem + 1, row, i, st =>
    match skipStride st.slots gs i with
    | none => none
    | some j =>
      match hm.assignment[row]? with
      | none => none
      | some a =>
        if a ≠ col then groupRowLoop hm gs col g rem (row + 1) (j + gs) st
        else
          let rev := revOrder hm.edge g.2
          let cnt0 : Int := if rev then (g.1.length : Int) - 1 else 0
          memberLoop hm rev j g.1 cnt0 st

/-- The outer group loop of `getAssignmentForGroups` (lines 253-283). -/
def groupLoop (hm : HM) (gs : Int) : List (List Nat × Bool) → Nat → St → Option St
  | [], _, st => some st
  | g :: rest, col, st =>
    match groupRowLoop hm gs col g hm.group_slots 0 (hm.begin_slot : Int) st with
    | none => none
    | some st' => groupLoop hm gs rest (col + 1) st'

/-- Models `HungarianMatching::getAssignmentForGroups` (lines 245-287), with
`group_size_` and `group_slots_` as computed by `createMatrixForGroups` held
in `hm`.  When the matrix is empty the function returns immediately
(lines 247-248); the final clearing of the matrix and assignment (lines
285-286) does not affect the returned state. -/
def getAssignmentForGroups (hm : HM) (gs : Int) : Option St :=
  if hm.hungarian_matrix.length = 0 then some (initSt hm)
  else groupLoop hm gs hm.pin_groups 0 (initSt hm)

/-- An unblocked, unused slot at abscissa `a` on layer 1. -/
def wslot (a : Int) : Slot :=
  { pos := { x := a, y := 0 }, layer := 1, blocked := false, used := false }

/-- An ungrouped, unplaced pin with handle `bt`. -/
def wpin (bt : Nat) : IOPin :=
  { inGroup := false, placed := false, pos := { x := 0, y := 0 }, layer := 0, bterm := bt }

/-- Concrete section for witnesses: the spec's scenario of three unblocked
slots at x = 0, 10, 20 and two ungrouped pins with cost matrix
`[[5, INFEASIBLE], [1, 9], [INFEASIBLE, 2]]`; the optimal solve assigns
pin 0 to row 1 and pin 1 to row 2 (row 0 unmatched, sentinel column 99). -/
def hmA : HM :=
  { pins := [wpin 10, wpin 11]
    slots := [wslot 0, wslot 10, wslot 20]
    pin_indices := [0, 1]
    pin_groups := []
    begin_slot := 0
    end_slot := 2
    non_blocked_slots := 3
    num_pin_groups := 0
    group_slots := 0
    hungarian_matrix := [[5, hungarian_fail], [1, 9], [hungarian_fail, 2]]
    assignment := [99, 0, 1]
    edge := Edge.bottom
    mirror_map := fun _ => none
    pin_idx_of_bterm := fun _ => 0
    reflect := fun p => p
    hpwl := fun _ _ => 0 }

/-- The section of `hmA` at the end of a completed run: both pins placed on
their solved slots, those slots used. -/
def hmB : HM :=
  { hmA with
    pins := [{ wpin 10 with placed := true, pos := { x := 10, y := 0 }, layer := 1 },
             { wpin 11 with placed := true, pos := { x := 20, y := 0 }, layer := 1 }]
    slots := [wslot 0, { wslot 10 with used := true }, { wslot 20 with used := true }] }

/-- A one-slot, one-pin section whose only matrix cell is the sentinel: the
solver force-matches the pin to an infeasible slot. -/
def hmC : HM :=
  { hmA with
    pins := [wpin 10]
    slots := [wslot 0]
    pin_indices := [0]
    end_slot := 0
    non_blocked_slots := 1
    hungarian_matrix := [[hungarian_fail]]
    assignment := [0] }

/-- A mirror-mode section: pin 0 (handle 10) is mirrored with pin 1
(handle 11); the reflection of slot 0's position x = 0 is x = 90, where
slot 1 lies. -/
def hmD : HM :=
  { hmA with
    pins := [wpin 10, wpin 11]
    slots := [wslot 0, wslot 90]
    pin_indices := [0]
    end_slot := 1
    non_blocked_slots := 1
    hungarian_matrix := [[5]]
    assignment := [0]
    mirror_map := fun b => if b = 10 then some 11 else none
    pin_idx_of_bterm := fun b => if b = 11 then 1 else 0
    reflect := fun p => { x := 90 - p.x, y := p.y } }

/-- The mirror-mode section `hmD` with the reflected slot removed: the
mirrored position x = 90 matches no slot, so placement of pin 0 raises the
fatal error. -/
def hmE : HM :=
  { hmD with slots := [wslot 0], end_slot := 0 }

/-- A one-slot section whose pin list holds a grouped pin followed by an
ungrouped pin: the built matrix row then has one cell per listed pin, not one
per ungrouped pin. -/
def hmX2 : HM :=
  { hmC with
    pins := [{ wpin 5 with inGroup := true }, wpin 6]
    pin_indices := [0, 1]
    hungarian_matrix := []
    assignment := [] }

/-- A grouped section: two pin groups ([0,1] with the order flag, [2]) on a
top edge with six unblocked slots; block size 2, candidate starts 0, 2, 4.
The solved assignment sends group 0 to row 1 (block start 2) and group 1 to
row 0 (block start 0). -/
def hmGW : HM :=
  { pins := [{ wpin 0 with inGroup := true }, { wpin 1 with inGroup := true },
             { wpin 2 with inGroup := true }]
    slots := [wslot 0, wslot 10, wslot 20, wslot 30, wslot 40, wslot 50]
    pin_indices := []
    pin_groups := [([0, 1], true), ([2], false)]
    begin_slot := 0
    end_slot := 5
    non_blocked_slots := 6
    num_pin_groups := 2
    group_slots := 3
    hungarian_matrix := [[1, 2], [3, 4], [5, 6]]
    assignment := [1, 0, 99]
    edge := Edge.top
    mirror_map := fun _ => none
    pin_idx_of_bterm := fun _ => 0
    reflect := fun p => p
    hpwl := fun i p => (i : Int) + p.x }

/-- The grouped section `hmGW` with a single reversed group [0, 1]: the solve
sends it to row 1, whose block starts at slot 2; the reversed order puts
member 0 on slot 3 and member 1 on slot 2. -/
def hmGW2 : HM :=
  { hmGW with
    pin_groups := [([0, 1], true)]
    num_pin_groups := 1
    group_slots := 3
    hungarian_matrix := [[1], [3], [5]]
    assignment := [99, 0, 88] }

/-- Position of the strided scan of `getAssignmentForGroups` after consuming
`k` non-matching rows: the scan advances by `group_size_` past each block
whose first slot is blocked and past each non-matching row. -/
def nthStride (slots : List Slot) (gs : Int) (i : Int) : Nat → Option Int
  | 0 => skipStride slots gs i
  | k + 1 =>
    match skipStride slots gs i with
    | none => none
    | some j => nthStride slots gs (j + gs) k

/-- The in-block offset of the `t`-th member of a group whose `pin_cnt`
starts at `cnt0`: decremented per member when the order is reversed,
incremented otherwise (lines 276-278). -/
def memberOff (rev : Bool) (cnt0 : Int) (t : Nat) : Int :=
  if rev then cnt0 - t else cnt0 + t

/-- Every slot of the size-`g` block starting at `s` exists and is unblocked:
the condition under which `createMatrixForGroups` keeps the block. -/
def freeBlock (slots : List Slot) (s : Int) (g : Nat) : Prop :=
  ∀ k : Nat, k < g → ∃ sl : Slot, slots[s.toNat + k]? = some sl ∧ sl.blocked = false

/-- The candidate block starts that `createMatrixForGroups` keeps: those whose
block contains no blocked slot (the blocked test evaluating to `some false`
also certifies every access of the test was in bounds). -/
def freeStarts (hm : HM) (gs : Int) : List Int :=
  (blockStarts (hm.end_slot : Int) gs (hm.begin_slot : Int)).filter
    (fun s => decide (blockBlocked hm.slots s gs.toNat = some false))

/-- Two slot vectors with identical blocked profiles: the scanning loops read
only the `blocked` flags, so they behave identically on such vectors. -/
def sameBlocked (slots slots' : List Slot) : Prop :=
  ∀ m, blockedAt slots m = blockedAt slots' m

/- ### Lemmas about the blocked-slot skip loop -/

theorem skipBlockedF_some (slots : List Slot) :
    ∀ fuel i j, skipBlockedF slots i fuel = some j →
      i ≤ j ∧ j < slots.length ∧ blockedAt slots j = some false ∧
        ∀ m, i ≤ m → m < j → blockedAt slots m = some true := by
  intro fuel
  induction fuel with
  | zero => intro i j h; simp [skipBlockedF] at h
  | succ fuel ih =>
    intro i j h
    cases hs : slots[i]? with
    | none => simp [skipBlockedF, hs] at h
    | some s =>
      simp only [skipBlockedF, hs] at h
      by_cases hb : s.blocked
      · rw [if_pos hb] at h
        obtain ⟨h1, h2, h3, h4⟩ := ih (i + 1) j h
        refine ⟨by omega, h2, h3, ?_⟩
        intro m hm1 hm2
        rcases Nat.eq_or_lt_of_le hm1 with rfl | hlt
        · simp [blockedAt, hs, hb]
        · exact h4 m hlt hm2
      · rw [if_neg hb] at h
        simp only [Option.some.injEq] at h
        subst h
        rw [Bool.not_eq_true] at hb
        refine ⟨le_refl i, ?_, ?_, ?_⟩
        · exact (List.getElem?_eq_some_iff.mp hs).1
        · simp [blockedAt, hs, hb]
        · intro m hm1 hm2; omega

theorem skipBlocked_some (slots : List Slot) (i j : Nat)
    (h : skipBlocked slots i = some j) :
    i ≤ j ∧ j < slots.length ∧ blockedAt slots j = some false ∧
      ∀ m, i ≤ m → m < j → blockedAt slots m = some true :=
  skipBlockedF_some slots _ i j h

theorem skipBlockedF_none_of_allBlocked (slots : List Slot) :
    ∀ fuel i, (∀ m, i ≤ m → m < slots.length → blockedAt slots m = some true) →
      skipBlockedF slots i fuel = none := by
  intro fuel
  induction fuel with
  | zero => intro i _; rfl
  | succ fuel ih =>
    intro i hall
    cases hs : slots[i]? with
    | none => simp only [skipBlockedF, hs]
    | some s =>
      have hi : i < slots.length := (List.getElem?_eq_some_iff.mp hs).1
      have hb : s.blocked = true := by
        have := hall i (le_refl i) hi
        simpa [blockedAt, hs] using this
      simp only [skipBlockedF, hs, hb, if_pos]
      exact ih (i + 1) (fun m h1 h2 => hall m (by omega) h2)

theorem skipBlockedF_none (slots : List Slot) :
    ∀ fuel i, slots.length + 1 - i ≤ fuel → skipBlockedF slots i fuel = none →
      ∀ m, i ≤ m → m < slots.length → blockedAt slots m = some true := by
  intro fuel
  induction fuel with
  | zero => intro i hf _ m h1 h2; omega
  | succ fuel ih =>
    intro i hf h m h1 h2
    cases hs : slots[i]? with
    | none =>
      have : slots.length ≤ i := List.getElem?_eq_none_iff.mp hs
      omega
    | some s =>
      simp only [skipBlockedF, hs] at h
      by_cases hb : s.blocked
      · rw [if_pos hb] at h
        rcases Nat.eq_or_lt_of_le h1 with rfl | hlt
        · simp [blockedAt, hs, hb]
        · exact ih (i + 1) (by omega) h m hlt h2
      · rw [if_neg hb] at h; exact absurd h (by simp)

theorem skipBlocked_none_iff (slots : List Slot) (i : Nat) :
    skipBlocked slots i = none ↔
      ∀ m, i ≤ m → m < slots.length → blockedAt slots m = some true := by
  constructor
  · exact fun h => skipBlockedF_none slots _ i (le_refl _) h
  · exact fun h => skipBlockedF_none_of_allBlocked slots _ i h

theorem skipBlocked_isSome_of_unblocked (slots : List Slot) (i m : Nat)
    (h1 : i ≤ m) (h2 : m < slots.length) (h3 : blockedAt slots m = some false) :
    ∃ j, skipBlocked slots i = some j := by
  cases hj : skipBlocked slots i with
  | none =>
    have := (skipBlocked_none_iff slots i).mp hj m h1 h2
    rw [h3] at this
    exact absurd this (by simp)
  | some j => exact ⟨j, rfl⟩

theorem skipBlockedF_congr (slots slots' : List Slot) (hsb : sameBlocked slots slots') :
    ∀ fuel i, skipBlockedF slots i fuel = skipBlockedF slots' i fuel := by
  intro fuel
  induction fuel with
  | zero => intro i; rfl
  | succ fuel ih =>
    intro i
    have hbl := hsb i
    cases hs : slots[i]? with
    | none =>
      cases hs' : slots'[i]? with
      | none => simp only [skipBlockedF, hs, hs']
      | some s' =>
        rw [blockedAt, blockedAt, hs, hs'] at hbl; exact absurd hbl (by simp)
    | some s =>
      cases hs' : slots'[i]? with
      | none => rw [blockedAt, blockedAt, hs, hs'] at hbl; exact absurd hbl (by simp)
      | some s' =>
        have hbb : s.blocked = s'.blocked := by
          rw [blockedAt, blockedAt, hs, hs'] at hbl
          simpa using hbl
        simp only [skipBlockedF, hs, hs', hbb]
        by_cases hb : s'.blocked
        · rw [if_pos hb, if_pos hb]; exact ih (i + 1)
        · rw [if_neg hb, if_neg hb]

theorem length_eq_of_sameBlocked (slots slots' : List Slot)
    (hsb : sameBlocked slots slots') : slots.length = slots'.length := by
  by_contra hne
  rcases Nat.lt_or_ge slots.length slots'.length with hlt | hge
  · have h1 : blockedAt slots slots.length = none := by
      simp [blockedAt, List.getElem?_eq_none_iff.mpr (le_refl _)]
    have h2 : blockedAt slots' slots.length ≠ none := by
      have : slots.length < slots'.length := hlt
      cases hs : slots'[slots.length]? with
      | none => exact absurd (List.getElem?_eq_none_iff.mp hs) (by omega)
      | some s => simp [blockedAt, hs]
    exact h2 ((hsb slots.length).symm.trans h1)
  · rcases Nat.lt_or_ge slots'.length slots.length with hlt' | hge'
    · have h1 : blockedAt slots' slots'.length = none := by
        simp [blockedAt, List.getElem?_eq_none_iff.mpr (le_refl _)]
      have h2 : blockedAt slots slots'.length ≠ none := by
        cases hs : slots[slots'.length]? with
        | none => exact absurd (List.getElem?_eq_none_iff.mp hs) (by omega)
        | some s => simp [blockedAt, hs]
      exact h2 ((hsb slots'.length).trans h1)
    · omega

theorem skipBlocked_congr (slots slots' : List Slot) (hsb : sameBlocked slots slots')
    (i : Nat) : skipBlocked slots i = skipBlocked slots' i := by
  rw [skipBlocked, skipBlocked, length_eq_of_sameBlocked slots slots' hsb]
  exact skipBlockedF_congr slots slots' hsb _ i

theorem skipBlocked_succ_of_blocked (slots : List Slot) (b : Nat)
    (h : blockedAt slots b = some true) :
    skipBlocked slots b = skipBlocked slots (b + 1) := by
  cases hs : slots[b]? with
  | none => rw [blockedAt, hs] at h; exact absurd h (by simp)
  | some s =>
    have hb : s.blocked = true := by rw [blockedAt, hs] at h; simpa using h
    have hlen : b < slots.length := (List.getElem?_eq_some_iff.mp hs).1
    have hfuel : slots.length + 1 - b = (slots.length + 1 - (b + 1)) + 1 := by omega
    rw [skipBlocked, hfuel]
    simp only [skipBlockedF, hs, hb, if_pos]
    rfl

theorem skipBlocked_idem (slots : List Slot) (i j : Nat)
    (h : skipBlocked slots i = some j) : skipBlocked slots j = some j := by
  obtain ⟨h1, h2, h3, _⟩ := skipBlocked_some slots i j h
  cases hs : slots[j]? with
  | none => rw [blockedAt, hs] at h3; exact absurd h3 (by simp)
  | some s =>
    have hb : s.blocked = false := by
      rw [blockedAt, hs] at h3; simpa using h3
    rw [skipBlocked]
    have hfuel : slots.length + 1 - j = (slots.length - j) + 1 := by omega
    rw [hfuel]
    simp only [skipBlockedF, hs, hb]
    simp

end PPL

namespace PPL

/- ### Lemmas about `nthUnb` -/

theorem nthUnb_congr (slots slots' : List Slot) (hsb : sameBlocked slots slots') :
    ∀ k i, nthUnb slots i k = nthUnb slots' i k := by
  intro k
  induction k with
  | zero => intro i; exact skipBlocked_congr slots slots' hsb i
  | succ k ih =>
    intro i
    rw [nthUnb, nthUnb, skipBlocked_congr slots slots' hsb i]
    cases skipBlocked slots' i with
    | none => rfl
    | some j => exact ih (j + 1)

theorem nthUnb_some (slots : List Slot) :
    ∀ k i j, nthUnb slots i k = some j →
      i ≤ j ∧ j < slots.length ∧ blockedAt slots j = some false := by
  intro k
  induction k with
  | zero =>
    intro i j h
    obtain ⟨h1, h2, h3, _⟩ := skipBlocked_some slots i j h
    exact ⟨h1, h2, h3⟩
  | succ k ih =>
    intro i j h
    rw [nthUnb] at h
    cases hs : skipBlocked slots i with
    | none => rw [hs] at h; exact absurd h (by simp)
    | some j0 =>
      rw [hs] at h
      obtain ⟨h1, h2, h3⟩ := ih (j0 + 1) j h
      have := (skipBlocked_some slots i j0 hs).1
      exact ⟨by omega, h2, h3⟩

theorem nthUnb_succ_right (slots : List Slot) :
    ∀ k i, nthUnb slots i (k + 1) = (nthUnb slots i k).bind (fun j => skipBlocked slots (j + 1)) := by
  intro k
  induction k with
  | zero =>
    intro i
    rw [nthUnb, nthUnb]
    cases skipBlocked slots i with
    | none => rfl
    | some j => rfl
  | succ k ih =>
    intro i
    cases hs : skipBlocked slots i with
    | none =>
      have l1 : nthUnb slots i (k + 1 + 1) = none := by rw [nthUnb, hs]
      have l2 : nthUnb slots i (k + 1) = none := by rw [nthUnb, hs]
      rw [l1, l2]; rfl
    | some j =>
      have l1 : nthUnb slots i (k + 1 + 1) = nthUnb slots (j + 1) (k + 1) := by
        rw [nthUnb, hs]
      have l2 : nthUnb slots i (k + 1) = nthUnb slots (j + 1) k := by rw [nthUnb, hs]
      rw [l1, l2, ih (j + 1)]

theorem nthUnb_mono_some (slots : List Slot) :
    ∀ k i j, nthUnb slots i (k + 1) = some j → ∃ j0, nthUnb slots i k = some j0 := by
  intro k i j h
  rw [nthUnb_succ_right] at h
  cases hs : nthUnb slots i k with
  | none => rw [hs] at h; exact absurd h (by simp)
  | some j0 => exact ⟨j0, rfl⟩

theorem nthUnb_le_some (slots : List Slot) :
    ∀ d k i j, nthUnb slots i (k + d) = some j → ∃ j0, nthUnb slots i k = some j0 := by
  intro d
  induction d with
  | zero => intro k i j h; exact ⟨j, h⟩
  | succ d ih =>
    intro k i j h
    have hsum : k + (d + 1) = (k + d) + 1 := by omega
    rw [hsum] at h
    obtain ⟨j1, hj1⟩ := nthUnb_mono_some slots (k + d) i j h
    exact ih k i j1 hj1

theorem nthUnb_lt_of_lt (slots : List Slot) :
    ∀ d k i j j', nthUnb slots i k = some j → nthUnb slots i (k + d + 1) = some j' → j < j' := by
  intro d
  induction d with
  | zero =>
    intro k i j j' hk hk1
    rw [Nat.add_zero] at hk1
    rw [nthUnb_succ_right, hk] at hk1
    simp only [Option.some_bind] at hk1
    have := (skipBlocked_some slots (j + 1) j' hk1).1
    omega
  | succ d ih =>
    intro k i j j' hk hk1
    have hsum : k + (d + 1) + 1 = (k + d + 1) + 1 := by omega
    rw [hsum, nthUnb_succ_right] at hk1
    cases hm : nthUnb slots i (k + d + 1) with
    | none => rw [hm] at hk1; exact absurd hk1 (by simp)
    | some jm =>
      rw [hm] at hk1
      simp only [Option.some_bind] at hk1
      have h1 : j < jm := ih k i j jm hk hm
      have h2 := (skipBlocked_some slots (jm + 1) j' hk1).1
      omega

theorem nthUnb_inj (slots : List Slot) (i : Nat) (k k' j : Nat)
    (hk : nthUnb slots i k = some j) (hk' : nthUnb slots i k' = some j) : k = k' := by
  rcases Nat.lt_trichotomy k k' with h | h | h
  · obtain ⟨d, rfl⟩ : ∃ d, k' = k + d + 1 := ⟨k' - k - 1, by omega⟩
    have := nthUnb_lt_of_lt slots d k i j j hk hk'
    omega
  · exact h
  · obtain ⟨d, rfl⟩ : ∃ d, k = k' + d + 1 := ⟨k - k' - 1, by omega⟩
    have := nthUnb_lt_of_lt slots d k' i j j hk' hk
    omega

/- ### `unblockedIn` and the unblocked-slot count of a section -/

theorem mem_rangeIdxs (b e m : Nat) : m ∈ rangeIdxs b e ↔ b ≤ m ∧ m ≤ e := by
  simp only [rangeIdxs, List.mem_map, List.mem_range]
  constructor
  · rintro ⟨k, hk, rfl⟩; omega
  · rintro ⟨h1, h2⟩; exact ⟨m - b, by omega, by omega⟩

theorem rangeIdxs_cons (b e : Nat) (h : b ≤ e) :
    rangeIdxs b e = b :: rangeIdxs (b + 1) e := by
  unfold rangeIdxs
  have h1 : e + 1 - b = (e - b) + 1 := by omega
  have h2 : e + 1 - (b + 1) = e - b := by omega
  rw [h1, h2, List.range_succ_eq_map]
  simp only [List.map_cons, Nat.add_zero, List.map_map]
  refine congrArg _ ?_
  apply List.map_congr_left
  intro k _
  simp [Function.comp]
  omega

theorem unblockedIn_nil_of_allBlocked (slots : List Slot) (b e : Nat)
    (h : ∀ m, b ≤ m → m ≤ e → blockedAt slots m = some true) :
    unblockedIn slots b e = [] := by
  rw [unblockedIn, List.filter_eq_nil_iff]
  intro m hm
  obtain ⟨h1, h2⟩ := (mem_rangeIdxs b e m).mp hm
  simp [h m h1 h2]

theorem unblockedIn_cons_of_skip (slots : List Slot) (e : Nat) :
    ∀ n b j, j - b ≤ n → skipBlocked slots b = some j → j ≤ e →
      unblockedIn slots b e = j :: unblockedIn slots (j + 1) e := by
  intro n
  induction n with
  | zero =>
    intro b j hn hskip hje
    obtain ⟨h1, h2, h3, h4⟩ := skipBlocked_some slots b j hskip
    have hbj : b = j := by omega
    subst hbj
    rw [unblockedIn, rangeIdxs_cons b e hje, List.filter_cons]
    simp only [h3, decide_True, if_pos]
    rfl
  | succ n ih =>
    intro b j hn hskip hje
    obtain ⟨h1, h2, h3, h4⟩ := skipBlocked_some slots b j hskip
    rcases Nat.eq_or_lt_of_le h1 with rfl | hlt
    · rw [unblockedIn, rangeIdxs_cons b e hje, List.filter_cons]
      simp only [h3, decide_True, if_pos]
      rfl
    · have hbl : blockedAt slots b = some true := h4 b (le_refl b) hlt
      have hskip' : skipBlocked slots (b + 1) = some j := by
        rw [← skipBlocked_succ_of_blocked slots b hbl]; exact hskip
      have hbe : b ≤ e := by omega
      rw [unblockedIn, rangeIdxs_cons b e hbe, List.filter_cons]
      have : ¬ (blockedAt slots b = some false) := by rw [hbl]; simp
      simp only [this, decide_False, if_neg, Bool.false_eq_true, not_false_iff]
      exact ih (b + 1) j (by omega) hskip' hje
  

theorem nthUnb_of_count (slots : List Slot) (e : Nat) :
    ∀ r b, r < (unblockedIn slots b e).length →
      ∃ j, nthUnb slots b r = some j ∧ b ≤ j ∧ j ≤ e ∧ blockedAt slots j = some false := by
  intro r
  induction r with
  | zero =>
    intro b hr
    cases hs : skipBlocked slots b with
    | none =>
      have hall := (skipBlocked_none_iff slots b).mp hs
      have hnil : unblockedIn slots b e = [] := by
        apply unblockedIn_nil_of_allBlocked
        intro m h1 h2
        by_cases hm : m < slots.length
        · exact hall m h1 hm
        · exfalso
          have hmem : m ∈ unblockedIn slots b e → False := by
            intro hmem
            have := List.of_mem_filter hmem
            simp only [decide_eq_true_eq] at this
            rw [blockedAt, List.getElem?_eq_none_iff.mpr (by omega)] at this
            exact absurd this (by simp)
          -- all of [b, e] is out of range here; derive emptiness directly
          have : unblockedIn slots b e ≠ [] → False := by
            intro hne
            obtain ⟨a, ha⟩ := List.exists_mem_of_ne_nil _ hne
            have hfl := List.of_mem_filter ha
            simp only [decide_eq_true_eq] at hfl
            obtain ⟨hb1, hb2⟩ := (mem_rangeIdxs b e a).mp (List.mem_of_mem_filter ha)
            by_cases hal : a < slots.length
            · have := hall a hb1 hal
              rw [this] at hfl
              exact absurd hfl (by simp)
            · rw [blockedAt, List.getElem?_eq_none_iff.mpr (by omega)] at hfl
              exact absurd hfl (by simp)
          by_cases hne : unblockedIn slots b e = []
          · rw [hne] at hr; simp at hr
          · exact this hne
      rw [hnil] at hr
      simp at hr
    | some j =>
      obtain ⟨h1, h2, h3, h4⟩ := skipBlocked_some slots b j hs
      by_cases hje : j ≤ e
      · exact ⟨j, hs, h1, hje, h3⟩
      · exfalso
        have hnil : unblockedIn slots b e = [] := by
          apply unblockedIn_nil_of_allBlocked
          intro m hm1 hm2
          exact h4 m hm1 (by omega)
        rw [hnil] at hr
        simp at hr
  | succ r ih =>
    intro b hr
    cases hs : skipBlocked slots b with
    | none =>
      exfalso
      have hall := (skipBlocked_none_iff slots b).mp hs
      have hnil : unblockedIn slots b e = [] := by
        by_cases hne : unblockedIn slots b e = []
        · exact hne
        · exfalso
          obtain ⟨a, ha⟩ := List.exists_mem_of_ne_nil _ hne
          have hfl := List.of_mem_filter ha
          simp only [decide_eq_true_eq] at hfl
          obtain ⟨hb1, hb2⟩ := (mem_rangeIdxs b e a).mp (List.mem_of_mem_filter ha)
          by_cases hal : a < slots.length
          · have := hall a hb1 hal
            rw [this] at hfl
            exact absurd hfl (by simp)
          · rw [blockedAt, List.getElem?_eq_none_iff.mpr (by omega)] at hfl
            exact absurd hfl (by simp)
      rw [hnil] at hr
      simp at hr
    | some j =>
      obtain ⟨h1, h2, h3, h4⟩ := skipBlocked_some slots b j hs
      by_cases hje : j ≤ e
      · have hcons := unblockedIn_cons_of_skip slots e (j - b) b j (le_refl _) hs hje
        rw [hcons] at hr
        simp only [List.length_cons, Nat.succ_lt_succ_iff] at hr
        obtain ⟨j', hj', hb1, hb2, hb3⟩ := ih (j + 1) hr
        refine ⟨j', ?_, by omega, hb2, hb3⟩
        rw [nthUnb, hs]
        exact hj'
      · exfalso
        have hnil : unblockedIn slots b e = [] := by
          apply unblockedIn_nil_of_allBlocked
          intro m hm1 hm2
          exact h4 m hm1 (by omega)
        rw [hnil] at hr
        simp at hr

/- ### Lemmas about `firstMatch` -/

theorem firstMatch_spec (asg : List Nat) (col : Nat) :
    ∀ rem row r, firstMatch asg col row rem = some r →
      asg[r]? = some col ∧ row ≤ r ∧ r < row + rem ∧
        ∀ e, row ≤ e → e < r → asg[e]? ≠ some col := by
  intro rem
  induction rem with
  | zero => intro row r h; simp [firstMatch] at h
  | succ rem ih =>
    intro row r h
    cases ha : asg[row]? with
    | none => simp [firstMatch, ha] at h
    | some a =>
      simp only [firstMatch, ha] at h
      by_cases hac : a = col
      · rw [if_pos hac] at h
        simp only [Option.some.injEq] at h
        subst h
        subst hac
        exact ⟨ha, le_refl _, by omega, fun e h1 h2 => by omega⟩
      · rw [if_neg hac] at h
        obtain ⟨hc1, hc2, hc3, hc4⟩ := ih (row + 1) r h
        refine ⟨hc1, by omega, by omega, ?_⟩
        intro e h1 h2
        rcases Nat.eq_or_lt_of_le h1 with rfl | hlt
        · rw [ha]; simp [hac]
        · exact hc4 e hlt h2

/- ### Characterization of the ungrouped row loop -/

theorem rowLoop_place (hm : HM) (pinIdx col : Nat) :
    ∀ d rem row i (st : St) j pin slot cell,
      (∀ e, e < d → ∃ a, hm.assignment[row + e]? = some a ∧ a ≠ col) →
      hm.assignment[row + d]? = some col →
      d < rem →
      nthUnb st.slots i d = some j →
      (hm.hungarian_matrix[row + d]?).bind (fun mrow => mrow[col]?) = some cell →
      st.pins[pinIdx]? = some pin →
      pin.placed = false →
      st.slots[j]? = some slot →
      rowLoop hm false pinIdx col rem row i st =
        some (placeResult st pinIdx pin j slot cell) := by
  intro d
  induction d with
  | zero =>
    intro rem row i st j pin slot cell hstep hmatch hd hnth hcell hpin hunpl hslot
    cases rem with
    | zero => omega
    | succ rem =>
      rw [Nat.add_zero] at hmatch hcell
      have hskip : skipBlocked st.slots i = some j := hnth
      simp only [rowLoop, hskip, hmatch, hcell, hpin]
      simp only [ne_eq, not_true_eq_false, if_false, Bool.false_and, Bool.false_or, hunpl,
        ite_false]
      by_cases hc : cell = hungarian_fail
      · simp only [hc, if_pos, ite_true, hpin, hunpl, Bool.false_or, ite_false]
        have hslot1 : ({ st with warns := st.warns ++ [pinIdx] } : St).slots[j]? = some slot :=
          hslot
        simp only [hslot1]
        simp [placeAt, placeResult, placedPin, hc]
      · simp only [hc, ite_false, hpin, hunpl, Bool.false_or]
        simp only [hslot]
        simp [placeAt, placeResult, placedPin, hc]
  | succ d ih =>
    intro rem row i st j pin slot cell hstep hmatch hd hnth hcell hpin hunpl hslot
    cases rem with
    | zero => omega
    | succ rem =>
      obtain ⟨a0, ha0, ha0ne⟩ := hstep 0 (by omega)
      rw [Nat.add_zero] at ha0
      rw [nthUnb] at hnth
      cases hskip : skipBlocked st.slots i with
      | none => rw [hskip] at hnth; exact absurd hnth (by simp)
      | some j0 =>
        rw [hskip] at hnth
        simp only [rowLoop, hskip, ha0]
        rw [if_pos ha0ne]
        have hstep' : ∀ e, e < d → ∃ a, hm.assignment[row + 1 + e]? = some a ∧ a ≠ col := by
          intro e he
          obtain ⟨a, ha, hane⟩ := hstep (e + 1) (by omega)
          exact ⟨a, by rw [show row + 1 + e = row + (e + 1) by omega]; exact ha, hane⟩
        have hmatch' : hm.assignment[row + 1 + d]? = some col := by
          rw [show row + 1 + d = row + (d + 1) by omega]; exact hmatch
        have hcell' : (hm.hungarian_matrix[row + 1 + d]?).bind (fun mrow => mrow[col]?)
            = some cell := by
          rw [show row + 1 + d = row + (d + 1) by omega]; exact hcell
        exact ih rem (row + 1) (j0 + 1) st j pin slot cell hstep' hmatch' (by omega) hnth
          hcell' hpin hunpl hslot

theorem nthUnb_skip_start (slots : List Slot) (i j : Nat)
    (h : skipBlocked slots i = some j) :
    ∀ k, nthUnb slots i k = nthUnb slots j k := by
  intro k
  cases k with
  | zero =>
    show skipBlocked slots i = skipBlocked slots j
    rw [h, skipBlocked_idem slots i j h]
  | succ k =>
    rw [nthUnb, nthUnb, h, skipBlocked_idem slots i j h]

theorem rowLoop_reach (hm : HM) (am : Bool) (pinIdx col : Nat) :
    ∀ d rem row i (st : St) j,
      (∀ e, e < d → ∃ a, hm.assignment[row + e]? = some a ∧ a ≠ col) →
      d < rem →
      nthUnb st.slots i d = some j →
      rowLoop hm am pinIdx col rem row i st =
        rowLoop hm am pinIdx col (rem - d) (row + d) j st := by
  intro d
  induction d with
  | zero =>
    intro rem row i st j hstep hd hnth
    cases rem with
    | zero => omega
    | succ rem =>
      have hskip : skipBlocked st.slots i = some j := hnth
      have hskipj : skipBlocked st.slots j = some j := skipBlocked_idem st.slots i j hskip
      simp only [Nat.sub_zero, Nat.add_zero]
      simp only [rowLoop, hskip, hskipj]
  | succ d ih =>
    intro rem row i st j hstep hd hnth
    cases rem with
    | zero => omega
    | succ rem =>
      obtain ⟨a0, ha0, ha0ne⟩ := hstep 0 (by omega)
      rw [Nat.add_zero] at ha0
      rw [nthUnb] at hnth
      cases hskip : skipBlocked st.slots i with
      | none => rw [hskip] at hnth; exact absurd hnth (by simp)
      | some j0 =>
        rw [hskip] at hnth
        simp only [rowLoop, hskip, ha0]
        rw [if_pos ha0ne]
        have hstep' : ∀ e, e < d → ∃ a, hm.assignment[row + 1 + e]? = some a ∧ a ≠ col := by
          intro e he
          obtain ⟨a, ha, hane⟩ := hstep (e + 1) (by omega)
          exact ⟨a, by rw [show row + 1 + e = row + (e + 1) by omega]; exact ha, hane⟩
        have := ih rem (row + 1) (j0 + 1) st j hstep' (by omega) hnth
        rw [this]
        have e1 : rem + 1 - (d + 1) = rem - d := by omega
        have e2 : row + 1 + d = row + (d + 1) := by omega
        rw [e1, e2]

theorem rowLoop_no_match (hm : HM) (am : Bool) (pinIdx col : Nat) :
    ∀ rem row i (st : St),
      (∀ e, e < rem → ∃ a, hm.assignment[row + e]? = some a ∧ a ≠ col) →
      (rem = 0 ∨ ∃ v, nthUnb st.slots i (rem - 1) = some v) →
      rowLoop hm am pinIdx col rem row i st = some st := by
  intro rem
  induction rem with
  | zero => intro row i st _ _; rfl
  | succ rem ih =>
    intro row i st hstep hnth
    rcases hnth with h0 | ⟨v, hv⟩
    · omega
    · simp only [Nat.add_sub_cancel] at hv
      obtain ⟨j0, hj0⟩ := nthUnb_le_some st.slots rem 0 i v (by rw [Nat.zero_add]; exact hv)
      have hskip : skipBlocked st.slots i = some j0 := hj0
      obtain ⟨a0, ha0, ha0ne⟩ := hstep 0 (by omega)
      rw [Nat.add_zero] at ha0
      simp only [rowLoop, hskip, ha0]
      rw [if_pos ha0ne]
      apply ih (row + 1) (j0 + 1) st
      · intro e he
        obtain ⟨a, ha, hane⟩ := hstep (e + 1) (by omega)
        exact ⟨a, by rw [show row + 1 + e = row + (e + 1) by omega]; exact ha, hane⟩
      · cases rem with
        | zero => exact Or.inl rfl
        | succ rem =>
          refine Or.inr ?_
          rw [nthUnb, hskip] at hv
          simp only [Nat.add_sub_cancel]
          exact ⟨v, hv⟩

theorem rowLoop_skip (hm : HM) (am : Bool) (pinIdx col : Nat) (pin : IOPin) :
    ∀ rem row i (st : St),
      st.pins[pinIdx]? = some pin →
      ((am = true ∧ hm.mirror_map pin.bterm = none) ∨ pin.placed = true) →
      (∀ e, e < rem → ∃ a, hm.assignment[row + e]? = some a) →
      (∀ e, e < rem → hm.assignment[row + e]? = some col →
        ∃ cell, (hm.hungarian_matrix[row + e]?).bind (fun mrow => mrow[col]?) = some cell) →
      (rem = 0 ∨ ∃ v, nthUnb st.slots i (rem - 1) = some v) →
      ∃ w, rowLoop hm am pinIdx col rem row i st = some { st with warns := w } := by
  intro rem
  induction rem with
  | zero =>
    intro row i st _ _ _ _ _
    exact ⟨st.warns, rfl⟩
  | succ rem ih =>
    intro row i st hpin hcond hasg hcells hnth
    rcases hnth with h0 | ⟨v, hv⟩
    · omega
    · simp only [Nat.add_sub_cancel] at hv
      obtain ⟨j0, hj0⟩ := nthUnb_le_some st.slots rem 0 i v (by rw [Nat.zero_add]; exact hv)
      have hskip : skipBlocked st.slots i = some j0 := hj0
      obtain ⟨a0, ha0⟩ := hasg 0 (by omega)
      rw [Nat.add_zero] at ha0
      by_cases hac : a0 = col
      · -- matching row: the pin is skipped via `continue`, slot_index stays at j0
        subst hac
        obtain ⟨cell, hcell⟩ := hcells 0 (by omega) (by rw [Nat.add_zero]; exact ha0)
        rw [Nat.add_zero] at hcell
        simp only [rowLoop, hskip, ha0, hcell]
        rw [if_neg (by simp)]
        have hcondb : (am && (hm.mirror_map pin.bterm).isNone || pin.placed) = true := by
          rcases hcond with ⟨ham, hmm⟩ | hpl
          · subst ham; simp [hmm]
          · simp [hpl]
        by_cases hc : cell = hungarian_fail
        · simp only [hc, ite_true, if_pos]
          have hpin1 : ({ st with warns := st.warns ++ [pinIdx] } : St).pins[pinIdx]?
              = some pin := hpin
          simp only [hpin1, hcondb, if_pos]
          have hrec := ih (row + 1) j0 { st with warns := st.warns ++ [pinIdx] } hpin hcond
            (fun e he => by
              obtain ⟨a, ha⟩ := hasg (e + 1) (by omega)
              exact ⟨a, by rw [show row + 1 + e = row + (e + 1) by omega]; exact ha⟩)
            (fun e he hcol => by
              obtain ⟨c, hc2⟩ := hcells (e + 1) (by omega)
                (by rw [show row + (e + 1) = row + 1 + e by omega]; exact hcol)
              exact ⟨c, by rw [show row + 1 + e = row + (e + 1) by omega]; exact hc2⟩)
            (by
              cases rem with
              | zero => exact Or.inl rfl
              | succ rem =>
                refine Or.inr ?_
                have hmov := nthUnb_skip_start st.slots i j0 hskip (rem + 1)
                rw [hmov] at hv
                obtain ⟨v', hv'⟩ := nthUnb_le_some st.slots 1 rem j0 v
                  (by rw [show rem + 1 = rem + 1 by rfl]; exact hv)
                simp only [Nat.add_sub_cancel]
                exact ⟨v', hv'⟩)
          obtain ⟨w, hw⟩ := hrec
          exact ⟨w, hw⟩
        · simp only [hc, ite_false, if_neg]
          simp only [hpin, hcondb, if_pos]
          have hrec := ih (row + 1) j0 st hpin hcond
            (fun e he => by
              obtain ⟨a, ha⟩ := hasg (e + 1) (by omega)
              exact ⟨a, by rw [show row + 1 + e = row + (e + 1) by omega]; exact ha⟩)
            (fun e he hcol => by
              obtain ⟨c, hc2⟩ := hcells (e + 1) (by omega)
                (by rw [show row + (e + 1) = row + 1 + e by omega]; exact hcol)
              exact ⟨c, by rw [show row + 1 + e = row + (e + 1) by omega]; exact hc2⟩)
            (by
              cases rem with
              | zero => exact Or.inl rfl
              | succ rem =>
                refine Or.inr ?_
                have hmov := nthUnb_skip_start st.slots i j0 hskip (rem + 1)
                rw [hmov] at hv
                obtain ⟨v', hv'⟩ := nthUnb_le_some st.slots 1 rem j0 v hv
                simp only [Nat.add_sub_cancel]
                exact ⟨v', hv'⟩)
          exact hrec
      · -- non-matching row
        simp only [rowLoop, hskip, ha0]
        rw [if_pos hac]
        apply ih (row + 1) (j0 + 1) st hpin hcond
        · intro e he
          obtain ⟨a, ha⟩ := hasg (e + 1) (by omega)
          exact ⟨a, by rw [show row + 1 + e = row + (e + 1) by omega]; exact ha⟩
        · intro e he hcol
          obtain ⟨c, hc2⟩ := hcells (e + 1) (by omega)
            (by rw [show row + (e + 1) = row + 1 + e by omega]; exact hcol)
          exact ⟨c, by rw [show row + 1 + e = row + (e + 1) by omega]; exact hc2⟩
        · cases rem with
          | zero => exact Or.inl rfl
          | succ rem =>
            refine Or.inr ?_
            rw [nthUnb, hskip] at hv
            simp only [Nat.add_sub_cancel]
            exact ⟨v, hv⟩

theorem rowLoop_mirror_ok (hm : HM) (pinIdx col rem row j : Nat) (st : St)
    (pin : IOPin) (slot : Slot) (cell : Int) (bt mIdx : Nat) (mpin : IOPin)
    (k2 : Nat) (sk : Slot)
    (hskipj : skipBlocked st.slots j = some j)
    (hmatch : hm.assignment[row]? = some col)
    (hcell : (hm.hungarian_matrix[row]?).bind (fun mrow => mrow[col]?) = some cell)
    (hpin : st.pins[pinIdx]? = some pin)
    (hunpl : pin.placed = false)
    (hbt : hm.mirror_map pin.bterm = some bt)
    (hslot : st.slots[j]? = some slot)
    (hmIdx : mIdx = hm.pin_idx_of_bterm bt)
    (hmpin : (st.pins.set pinIdx (placedPin pin slot))[mIdx]? = some mpin)
    (hlook : getSlotIdxByPosition (st.slots.set j { slot with used := true })
        (hm.reflect slot.pos) slot.layer = some k2)
    (hsk : (st.slots.set j { slot with used := true })[k2]? = some sk) :
    rowLoop hm true pinIdx col (rem + 1) row j st =
      some (mirrorResultOk st pinIdx pin j slot cell mIdx mpin (hm.reflect slot.pos) k2 sk) := by
  simp only [placedPin] at hmpin
  simp only [rowLoop, hskipj, hmatch, hcell]
  rw [if_neg (by simp)]
  by_cases hc : cell = hungarian_fail
  · simp only [hc, ite_true, if_pos]
    have hpin1 : ({ st with warns := st.warns ++ [pinIdx] } : St).pins[pinIdx]? = some pin := hpin
    simp only [hpin1, hbt, Option.isSome_some, Option.isNone_some, Bool.and_false,
      Bool.false_or, hunpl, ite_false, Bool.true_and]
    have hslot1 : ({ st with warns := st.warns ++ [pinIdx] } : St).slots[j]? = some slot := hslot
    simp only [hslot1]
    simp only [placeAt, hbt, ← hmIdx]
    simp only [hmpin, hlook, hsk]
    simp [mirrorResultOk, placedPin, mirrorPin, hc]
  · simp only [hc, ite_false]
    simp only [hpin, hbt, Option.isNone_some, Bool.and_false, Bool.false_or, hunpl, ite_false]
    simp only [hslot]
    simp only [placeAt, hbt, ← hmIdx]
    simp only [hmpin, hlook, hsk]
    simp [mirrorResultOk, placedPin, mirrorPin, hc]

theorem rowLoop_mirror_fatal (hm : HM) (pinIdx col rem row j : Nat) (st : St)
    (pin : IOPin) (slot : Slot) (cell : Int) (bt mIdx : Nat) (mpin : IOPin)
    (hskipj : skipBlocked st.slots j = some j)
    (hmatch : hm.assignment[row]? = some col)
    (hcell : (hm.hungarian_matrix[row]?).bind (fun mrow => mrow[col]?) = some cell)
    (hpin : st.pins[pinIdx]? = some pin)
    (hunpl : pin.placed = false)
    (hbt : hm.mirror_map pin.bterm = some bt)
    (hslot : st.slots[j]? = some slot)
    (hmIdx : mIdx = hm.pin_idx_of_bterm bt)
    (hmpin : (st.pins.set pinIdx (placedPin pin slot))[mIdx]? = some mpin)
    (hlook : getSlotIdxByPosition (st.slots.set j { slot with used := true })
        (hm.reflect slot.pos) slot.layer = none) :
    rowLoop hm true pinIdx col (rem + 1) row j st =
      some (mirrorResultFatal st pinIdx pin j slot cell mIdx mpin (hm.reflect slot.pos)) := by
  simp only [placedPin] at hmpin
  simp only [rowLoop, hskipj, hmatch, hcell]
  rw [if_neg (by simp)]
  by_cases hc : cell = hungarian_fail
  · simp only [hc, ite_true, if_pos]
    have hpin1 : ({ st with warns := st.warns ++ [pinIdx] } : St).pins[pinIdx]? = some pin := hpin
    simp only [hpin1, hbt, Option.isNone_some, Bool.and_false, Bool.false_or, hunpl, ite_false]
    have hslot1 : ({ st with warns := st.warns ++ [pinIdx] } : St).slots[j]? = some slot := hslot
    simp only [hslot1]
    simp only [placeAt, hbt, ← hmIdx]
    simp only [hmpin, hlook]
    simp [mirrorResultFatal, placedPin, mirrorPin, hc]
  · simp only [hc, ite_false]
    simp only [hpin, hbt, Option.isNone_some, Bool.and_false, Bool.false_or, hunpl, ite_false]
    simp only [hslot]
    simp only [placeAt, hbt, ← hmIdx]
    simp only [hmpin, hlook]
    simp [mirrorResultFatal, placedPin, mirrorPin, hc]

/- ### Supporting lemmas for the outer pin loop -/

theorem firstMatch_exists (asg : List Nat) (col : Nat) :
    ∀ rem row, row + rem ≤ asg.length → (∃ e, e < rem ∧ asg[row + e]? = some col) →
      ∃ r, firstMatch asg col row rem = some r := by
  intro rem
  induction rem with
  | zero => intro row _ ⟨e, he, _⟩; omega
  | succ rem ih =>
    intro row hlen ⟨e, he, hcol⟩
    have hrow : row < asg.length := by omega
    have ha : asg[row]? = some asg[row] := List.getElem?_eq_getElem hrow
    by_cases hac : asg[row] = col
    · exact ⟨row, by simp only [firstMatch, ha]; rw [if_pos hac]⟩
    · cases e with
      | zero =>
        rw [Nat.add_zero] at hcol
        rw [ha] at hcol
        simp only [Option.some.injEq] at hcol
        exact absurd hcol hac
      | succ e =>
        obtain ⟨r, hr⟩ := ih (row + 1) (by omega)
          ⟨e, by omega, by rw [show row + 1 + e = row + (e + 1) by omega]; exact hcol⟩
        refine ⟨r, ?_⟩
        simp only [firstMatch, ha]
        rw [if_neg hac]
        exact hr

theorem targetSlot_eq (hm : HM) (c r j : Nat)
    (hr : firstMatch hm.assignment c 0 hm.non_blocked_slots = some r)
    (hj : nthUnb hm.slots hm.begin_slot r = some j) :
    targetSlot hm c = some j := by
  rw [targetSlot, hr]
  exact hj

theorem targetSlot_inj (hm : HM) (c c' j : Nat)
    (hc : targetSlot hm c = some j) (hc' : targetSlot hm c' = some j) : c = c' := by
  rw [targetSlot] at hc hc'
  cases hr : firstMatch hm.assignment c 0 hm.non_blocked_slots with
  | none => rw [hr] at hc; exact absurd hc (by simp)
  | some r =>
    rw [hr] at hc
    cases hr' : firstMatch hm.assignment c' 0 hm.non_blocked_slots with
    | none => rw [hr'] at hc'; exact absurd hc' (by simp)
    | some r' =>
      rw [hr'] at hc'
      have heq : r = r' := nthUnb_inj hm.slots hm.begin_slot r r' j hc hc'
      subst heq
      have h1 := (firstMatch_spec hm.assignment c _ 0 r hr).1
      have h2 := (firstMatch_spec hm.assignment c' _ 0 r hr').1
      rw [h1] at h2
      simpa using h2

theorem sameBlocked_set_used (slots : List Slot) (j : Nat) (slot : Slot)
    (hj : slots[j]? = some slot) :
    sameBlocked slots (slots.set j { slot with used := true }) := by
  intro m
  by_cases hm : j = m
  · subst hm
    have hjl : j < slots.length := (List.getElem?_eq_some_iff.mp hj).1
    rw [blockedAt, blockedAt, List.getElem?_set_self hjl, hj]
    simp
  · rw [blockedAt, blockedAt, List.getElem?_set_ne hm]

theorem sameBlocked_trans (a b c : List Slot) (h1 : sameBlocked a b)
    (h2 : sameBlocked b c) : sameBlocked a c := by
  intro m
  rw [h1 m, h2 m]

theorem isUngrouped_eq_of_pin (pins pins' : List IOPin)
    (hing : ∀ idx : Nat, (pins'[idx]?).map IOPin.inGroup = (pins[idx]?).map IOPin.inGroup)
    (idx : Nat) (pin : IOPin) (hp : pins'[idx]? = some pin) :
    isUngrouped pins idx = !pin.inGroup := by
  have h := hing idx
  rw [hp] at h
  cases hq : pins[idx]? with
  | none => rw [hq] at h; exact absurd h (by simp)
  | some q =>
    rw [hq] at h
    simp at h
    simp [isUngrouped, hq, h]

theorem pinLoop_c1 (hm : HM) (hrows : hm.non_blocked_slots ≤ hm.assignment.length) :
    ∀ (idxs : List Nat) (c0 : Nat) (st : St),
      st.fatal = false →
      (∀ idx ∈ idxs, idx < st.pins.length) →
      (∀ idx : Nat, (st.pins[idx]?).map IOPin.inGroup = (hm.pins[idx]?).map IOPin.inGroup) →
      (idxs.filter (isUngrouped hm.pins)).Nodup →
      (∀ idx ∈ idxs.filter (isUngrouped hm.pins),
        ∃ pin, st.pins[idx]? = some pin ∧ pin.placed = false) →
      sameBlocked hm.slots st.slots →
      (∀ t, t < (idxs.filter (isUngrouped hm.pins)).length →
        ∃ r, firstMatch hm.assignment (c0 + t) 0 hm.non_blocked_slots = some r ∧
          (∃ j, nthUnb hm.slots hm.begin_slot r = some j) ∧
          ∃ mrow, hm.hungarian_matrix[r]? = some mrow ∧ ∃ cell, mrow[c0 + t]? = some cell) →
      ∃ st', pinLoop hm false idxs c0 st = some st' ∧
        st'.fatal = false ∧
        st'.slots.length = st.slots.length ∧
        st'.pins.length = st.pins.length ∧
        (∀ t, t < (idxs.filter (isUngrouped hm.pins)).length → ∀ j2,
          targetSlot hm (c0 + t) = some j2 →
          ∃ slot, st.slots[j2]? = some slot ∧ st'.slots[j2]? = some { slot with used := true }) ∧
        (∀ m : Nat, (∀ t, t < (idxs.filter (isUngrouped hm.pins)).length →
            targetSlot hm (c0 + t) ≠ some m) → st'.slots[m]? = st.slots[m]?) ∧
        (∀ t, t < (idxs.filter (isUngrouped hm.pins)).length → ∀ idx2,
          (idxs.filter (isUngrouped hm.pins))[t]? = some idx2 →
          ∃ pin j2 slot, st.pins[idx2]? = some pin ∧ targetSlot hm (c0 + t) = some j2 ∧
            st.slots[j2]? = some slot ∧ st'.pins[idx2]? = some (placedPin pin slot)) ∧
        (∀ idx2 : Nat, idx2 ∉ idxs.filter (isUngrouped hm.pins) →
          st'.pins[idx2]? = st.pins[idx2]?) := by
  intro idxs
  induction idxs with
  | nil =>
    intro c0 st hfatal hb hing hnd hunpl hsb htgt
    refine ⟨st, rfl, hfatal, rfl, rfl, ?_, ?_, ?_, ?_⟩
    · intro t ht; simp at ht
    · intro m _; rfl
    · intro t ht; simp at ht
    · intro idx2 _; rfl
  | cons idx rest ih =>
    intro c0 st hfatal hb hing hnd hunpl hsb htgt
    have hlen : idx < st.pins.length := hb idx (by simp)
    obtain ⟨pin, hpin⟩ : ∃ pin, st.pins[idx]? = some pin :=
      ⟨_, List.getElem?_eq_getElem hlen⟩
    by_cases hg : pin.inGroup = true
    · -- grouped pin: skipped, no column consumed
      have hfu : isUngrouped hm.pins idx = false := by
        rw [isUngrouped_eq_of_pin hm.pins st.pins hing idx pin hpin, hg]; rfl
      have hfil : (idx :: rest).filter (isUngrouped hm.pins)
          = rest.filter (isUngrouped hm.pins) := by
        rw [List.filter_cons, hfu]; simp
      have hstep : pinLoop hm false (idx :: rest) c0 st = pinLoop hm false rest c0 st := by
        simp only [pinLoop, hpin, hg, if_pos]
      rw [hfil] at hnd hunpl htgt
      obtain ⟨st', h1, h2, h3, h4, h5, h6, h7, h8⟩ :=
        ih c0 st hfatal (fun i2 hi2 => hb i2 (by simp [hi2])) hing hnd hunpl hsb htgt
      refine ⟨st', ?_, h2, h3, h4, ?_, ?_, ?_, ?_⟩
      · rw [hstep]; exact h1
      · rw [hfil]; exact h5
      · rw [hfil]; exact h6
      · rw [hfil]; exact h7
      · rw [hfil]; exact h8
    · -- ungrouped pin: placed on its target slot, column consumed
      rw [Bool.not_eq_true] at hg
      have hfu : isUngrouped hm.pins idx = true := by
        rw [isUngrouped_eq_of_pin hm.pins st.pins hing idx pin hpin, hg]; rfl
      have hfil : (idx :: rest).filter (isUngrouped hm.pins)
          = idx :: rest.filter (isUngrouped hm.pins) := by
        rw [List.filter_cons, hfu]; simp
      rw [hfil] at hnd hunpl htgt
      obtain ⟨hidxnotin, hndrest⟩ := List.nodup_cons.mp hnd
      obtain ⟨pin0, hpin0, hunpl0⟩ := hunpl idx (by simp)
      have hpe : pin0 = pin := Option.some_inj.mp (hpin0.symm.trans hpin)
      rw [hpe] at hunpl0
      obtain ⟨r, hr, ⟨j, hj⟩, mrow, hmrow, cell, hcell⟩ := htgt 0 (by simp)
      rw [Nat.add_zero] at hr hcell
      obtain ⟨hasr, _, hrlt, hprev⟩ := firstMatch_spec hm.assignment c0 _ 0 r hr
      rw [Nat.zero_add] at hrlt
      have htargetc0 : targetSlot hm c0 = some j := targetSlot_eq hm c0 r j hr hj
      have hjst : nthUnb st.slots hm.begin_slot r = some j := by
        rw [← nthUnb_congr hm.slots st.slots hsb r hm.begin_slot]; exact hj
      obtain ⟨hjge, hjlen, hjubl⟩ := nthUnb_some st.slots r hm.begin_slot j hjst
      obtain ⟨slot, hslot⟩ : ∃ slot, st.slots[j]? = some slot :=
        ⟨_, List.getElem?_eq_getElem hjlen⟩
      have hrow : rowLoop hm false idx c0 hm.non_blocked_slots 0 hm.begin_slot st =
          some (placeResult st idx pin j slot cell) := by
        apply rowLoop_place hm idx c0 r hm.non_blocked_slots 0 hm.begin_slot st j pin slot cell
        · intro e he
          have helen : e < hm.assignment.length := by omega
          refine ⟨hm.assignment[e], by rw [Nat.zero_add]; exact List.getElem?_eq_getElem helen, ?_⟩
          intro haeq
          exact hprev e (by omega) (by omega)
            (by rw [List.getElem?_eq_getElem helen, haeq])
        · rw [Nat.zero_add]; exact hasr
        · exact hrlt
        · exact hjst
        · rw [Nat.zero_add, hmrow]
          simpa using hcell
        · exact hpin
        · exact hunpl0
        · exact hslot
      have hfatal1 : (placeResult st idx pin j slot cell).fatal = false := by
        simp [placeResult, hfatal]
      have hstep : pinLoop hm false (idx :: rest) c0 st =
          pinLoop hm false rest (c0 + 1) (placeResult st idx pin j slot cell) := by
        simp only [pinLoop, hpin, hg, Bool.false_eq_true, if_neg, hrow, hfatal1,
          ite_false, not_false_iff]
      -- facts about the intermediate state
      have hpins1idx : (placeResult st idx pin j slot cell).pins[idx]?
          = some (placedPin pin slot) := by
        simp only [placeResult]
        exact List.getElem?_set_self hlen
      have hpins1ne : ∀ i2 : Nat, i2 ≠ idx →
          (placeResult st idx pin j slot cell).pins[i2]? = st.pins[i2]? := by
        intro i2 hne
        simp only [placeResult]
        exact List.getElem?_set_ne (fun h => hne h.symm)
      have hslots1j : (placeResult st idx pin j slot cell).slots[j]?
          = some { slot with used := true } := by
        simp only [placeResult]
        exact List.getElem?_set_self hjlen
      have hslots1ne : ∀ m : Nat, m ≠ j →
          (placeResult st idx pin j slot cell).slots[m]? = st.slots[m]? := by
        intro m hne
        simp only [placeResult]
        exact List.getElem?_set_ne (fun h => hne h.symm)
      have hsb1 : sameBlocked hm.slots (placeResult st idx pin j slot cell).slots := by
        apply sameBlocked_trans hm.slots st.slots _ hsb
        simp only [placeResult]
        exact sameBlocked_set_used st.slots j slot hslot
      have hlens1 : (placeResult st idx pin j slot cell).slots.length = st.slots.length := by
        simp [placeResult]
      have hlenp1 : (placeResult st idx pin j slot cell).pins.length = st.pins.length := by
        simp [placeResult]
      obtain ⟨st', h1, h2, h3, h4, h5, h6, h7, h8⟩ :=
        ih (c0 + 1) (placeResult st idx pin j slot cell) hfatal1
          (by
            intro i2 hi2
            rw [hlenp1]
            exact hb i2 (by simp [hi2]))
          (by
            intro i2
            by_cases hi2 : i2 = idx
            · subst hi2
              rw [hpins1idx, ← hing i2, hpin]
              simp [placedPin]
            · rw [hpins1ne i2 hi2]
              exact hing i2)
          hndrest
          (by
            intro i2 hi2
            have hne : i2 ≠ idx := fun h => hidxnotin (h ▸ hi2)
            rw [hpins1ne i2 hne]
            exact hunpl i2 (by simp [hi2]))
          hsb1
          (by
            intro t ht
            obtain ⟨r2, hr2, hj2, hc2⟩ := htgt (t + 1) (by simp; omega)
            rw [show c0 + (t + 1) = c0 + 1 + t by omega] at hr2 hc2
            exact ⟨r2, hr2, hj2, hc2⟩)
      refine ⟨st', ?_, h2, by rw [h3, hlens1], by rw [h4, hlenp1], ?_, ?_, ?_, ?_⟩
      · rw [hstep]; exact h1
      · -- slots hit
        rw [hfil]
        intro t ht j2 hjt
        cases t with
        | zero =>
          rw [Nat.add_zero, htargetc0] at hjt
          have hj2 : j = j2 := Option.some_inj.mp hjt
          subst hj2
          refine ⟨slot, hslot, ?_⟩
          have hmiss : ∀ t2, t2 < (rest.filter (isUngrouped hm.pins)).length →
              targetSlot hm (c0 + 1 + t2) ≠ some j := by
            intro t2 _ hcontra
            have := targetSlot_inj hm (c0 + 1 + t2) c0 j hcontra htargetc0
            omega
          rw [h6 j hmiss]
          exact hslots1j
        | succ t =>
          simp only [List.length_cons] at ht
          rw [show c0 + (t + 1) = c0 + 1 + t by omega] at hjt
          obtain ⟨slot2, hslot2a, hslot2b⟩ := h5 t (by omega) j2 hjt
          have hne : j2 ≠ j := by
            intro h
            subst h
            have := targetSlot_inj hm (c0 + 1 + t) c0 j2 hjt htargetc0
            omega
          rw [hslots1ne j2 hne] at hslot2a
          exact ⟨slot2, hslot2a, hslot2b⟩
      · -- slots miss
        rw [hfil]
        intro m hmiss
        have hmiss' : ∀ t2, t2 < (rest.filter (isUngrouped hm.pins)).length →
            targetSlot hm (c0 + 1 + t2) ≠ some m := by
          intro t2 ht2
          rw [show c0 + 1 + t2 = c0 + (t2 + 1) by omega]
          exact hmiss (t2 + 1) (by simp; omega)
        rw [h6 m hmiss']
        have hne : m ≠ j := by
          intro h
          subst h
          exact hmiss 0 (by simp) (by rw [Nat.add_zero]; exact htargetc0)
        exact hslots1ne m hne
      · -- pins hit
        rw [hfil]
        intro t ht idx2 hidx2
        cases t with
        | zero =>
          simp only [List.getElem?_cons_zero, Option.some.injEq] at hidx2
          subst hidx2
          refine ⟨pin, j, slot, hpin, by rw [Nat.add_zero]; exact htargetc0, hslot, ?_⟩
          rw [h8 idx hidxnotin]
          exact hpins1idx
        | succ t =>
          simp only [List.length_cons] at ht
          simp only [List.getElem?_cons_succ] at hidx2
          obtain ⟨pin2, j2, slot2, hp2, ht2, hs2, hr2⟩ := h7 t (by omega) idx2 hidx2
          have hmem : idx2 ∈ rest.filter (isUngrouped hm.pins) := by
            exact List.getElem?_mem hidx2
          have hne : idx2 ≠ idx := fun h => hidxnotin (h ▸ hmem)
          rw [hpins1ne idx2 hne] at hp2
          rw [show c0 + 1 + t = c0 + (t + 1) by omega] at ht2
          have hnej : j2 ≠ j := by
            intro h
            subst h
            have := targetSlot_inj hm (c0 + (t + 1)) c0 j2 ht2 htargetc0
            omega
          rw [hslots1ne j2 hnej] at hs2
          exact ⟨pin2, j2, slot2, hp2, ht2, hs2, hr2⟩
      · -- pins miss
        rw [hfil]
        intro idx2 hnotin
        have hne : idx2 ≠ idx := by
          intro h
          exact hnotin (by simp [h])
        have hnotin' : idx2 ∉ rest.filter (isUngrouped hm.pins) := by
          intro h
          exact hnotin (by simp [h])
        rw [h8 idx2 hnotin']
        exact hpins1ne idx2 hne

/-- C1: for a section with `U = non_blocked_slots` unblocked slots (matched by
the slot vector) and `P ≤ U` ungrouped pins, all initially unplaced, with a
solved assignment that matches every column `c < P` to some row `r < U`,
`getFinalAssignment` (plain mode) completes; afterwards every ungrouped pin
`c` is placed on its target slot inside the section, that slot was unblocked
and is now used; targets of distinct pins are distinct slots (so a slot
marked used is never assigned again in the run); and exactly `P` slots are
marked used. -/
theorem claim_C1 (hm : HM)
    (hb : ∀ idx ∈ hm.pin_indices, idx < hm.pins.length)
    (hnd : (hm.pin_indices.filter (isUngrouped hm.pins)).Nodup)
    (hnoplace : ∀ p ∈ hm.pins, p.placed = false)
    (hnouse : ∀ s ∈ hm.slots, s.used = false)
    (hcount : (unblockedIn hm.slots hm.begin_slot hm.end_slot).length = hm.non_blocked_slots)
    (hP : (ungroupedIdxs hm).length ≤ hm.non_blocked_slots)
    (hrows : hm.non_blocked_slots ≤ hm.assignment.length)
    (hmatchall : ∀ c, c < (ungroupedIdxs hm).length →
      ∃ r, r < hm.non_blocked_slots ∧ hm.assignment[r]? = some c)
    (hcells : ∀ r, r < hm.non_blocked_slots → ∃ mrow, hm.hungarian_matrix[r]? = some mrow ∧
      (ungroupedIdxs hm).length ≤ mrow.length) :
    ∃ st', getFinalAssignment hm false = some st' ∧ st'.fatal = false ∧
      st'.slots.length = hm.slots.length ∧
      (∀ c, c < (ungroupedIdxs hm).length → ∃ j slot idx pin,
        targetSlot hm c = some j ∧
        hm.begin_slot ≤ j ∧ j ≤ hm.end_slot ∧
        hm.slots[j]? = some slot ∧ slot.blocked = false ∧
        st'.slots[j]? = some { slot with used := true } ∧
        (ungroupedIdxs hm)[c]? = some idx ∧
        hm.pins[idx]? = some pin ∧
        st'.pins[idx]? = some (placedPin pin slot)) ∧
      (∀ c c' j2, targetSlot hm c = some j2 → targetSlot hm c' = some j2 → c = c') ∧
      (∀ m, usedAt st'.slots m = true ↔
        ∃ c, c < (ungroupedIdxs hm).length ∧ targetSlot hm c = some m) ∧
      ((Finset.range st'.slots.length).filter (fun m => usedAt st'.slots m = true)).card
        = (ungroupedIdxs hm).length := by
  have hfil : hm.pin_indices.filter (isUngrouped hm.pins) = ungroupedIdxs hm := rfl
  -- per-column solver facts
  have htgtfact : ∀ t, t < (ungroupedIdxs hm).length →
      ∃ r, firstMatch hm.assignment (0 + t) 0 hm.non_blocked_slots = some r ∧
        (∃ j, nthUnb hm.slots hm.begin_slot r = some j) ∧
        ∃ mrow, hm.hungarian_matrix[r]? = some mrow ∧ ∃ cell, mrow[0 + t]? = some cell := by
    intro t ht
    obtain ⟨r0, hr0lt, hr0⟩ := hmatchall t ht
    obtain ⟨r, hr⟩ := firstMatch_exists hm.assignment (0 + t) hm.non_blocked_slots 0
      (by omega) ⟨r0, hr0lt, by rw [Nat.zero_add, Nat.zero_add]; exact hr0⟩
    have hrlt : r < hm.non_blocked_slots := by
      have := (firstMatch_spec hm.assignment (0 + t) _ 0 r hr).2.2.1
      omega
    obtain ⟨j, hj, _, _, _⟩ := nthUnb_of_count hm.slots hm.end_slot r hm.begin_slot
      (by rw [hcount]; exact hrlt)
    obtain ⟨mrow, hmrow, hmlen⟩ := hcells r hrlt
    have hcell : ∃ cell, mrow[0 + t]? = some cell :=
      ⟨_, List.getElem?_eq_getElem (by omega)⟩
    exact ⟨r, hr, ⟨j, hj⟩, mrow, hmrow, hcell⟩
  obtain ⟨st', h1, h2, h3, h4, h5, h6, h7, h8⟩ :=
    pinLoop_c1 hm hrows hm.pin_indices 0 (initSt hm) rfl
      (fun idx hi => hb idx hi)
      (fun idx => rfl)
      hnd
      (by
        intro idx hi
        rw [hfil] at hi
        have hlt : idx < hm.pins.length := by
          have hm2 := List.mem_filter.mp hi
          exact hb idx hm2.1
        refine ⟨hm.pins[idx], List.getElem?_eq_getElem hlt, ?_⟩
        exact hnoplace _ (List.getElem_mem hlt))
      (fun m => rfl)
      (by rw [hfil]; exact htgtfact)
  rw [hfil] at h5 h6 h7 h8
  have hisl : (initSt hm).slots = hm.slots := rfl
  have hipn : (initSt hm).pins = hm.pins := rfl
  rw [hisl] at h3 h5 h6 h7
  rw [hipn] at h4 h7 h8
  -- target facts in closed form
  have htj : ∀ c, c < (ungroupedIdxs hm).length →
      ∃ j, targetSlot hm c = some j ∧ hm.begin_slot ≤ j ∧ j ≤ hm.end_slot ∧
        blockedAt hm.slots j = some false := by
    intro c hc
    obtain ⟨r, hr, ⟨j0, hj0⟩, _⟩ := htgtfact c hc
    rw [Nat.zero_add] at hr
    have hrlt : r < hm.non_blocked_slots := by
      have := (firstMatch_spec hm.assignment c _ 0 r hr).2.2.1
      omega
    obtain ⟨j, hj, hb1, hb2, hb3⟩ := nthUnb_of_count hm.slots hm.end_slot r hm.begin_slot
      (by rw [hcount]; exact hrlt)
    exact ⟨j, targetSlot_eq hm c r j hr hj, hb1, hb2, hb3⟩
  refine ⟨st', h1, h2, h3, ?_, ?_, ?_, ?_⟩
  · -- per-pin placement
    intro c hc
    obtain ⟨j, htc, hge, hle, hbl⟩ := htj c hc
    obtain ⟨slot, hslot, hslot'⟩ := h5 c hc j (by rw [Nat.zero_add]; exact htc)
    obtain ⟨idx, hidx⟩ : ∃ idx, (ungroupedIdxs hm)[c]? = some idx :=
      ⟨_, List.getElem?_eq_getElem hc⟩
    obtain ⟨pin, j2, slot2, hpin, htc2, hslot2, hpin'⟩ := h7 c hc idx hidx
    rw [Nat.zero_add] at htc2
    rw [htc] at htc2
    have hj2 : j = j2 := Option.some_inj.mp htc2
    subst hj2
    have hslote : slot2 = slot := by
      rw [hslot] at hslot2
      exact Option.some_inj.mp hslot2.symm
    subst hslote
    have hblf : slot2.blocked = false := by
      rw [blockedAt, hslot] at hbl
      simpa using hbl
    exact ⟨j, slot2, idx, pin, htc, hge, hle, hslot, hblf, hslot', hidx, hpin, hpin'⟩
  · -- distinct targets
    intro c c' j2 hc hc'
    exact targetSlot_inj hm c c' j2 hc hc'
  · -- used slots are exactly the targets
    intro m
    constructor
    · intro hused
      by_contra hnex
      push_neg at hnex
      have hmiss : ∀ t, t < (ungroupedIdxs hm).length → targetSlot hm (0 + t) ≠ some m := by
        intro t ht
        rw [Nat.zero_add]
        exact fun h => (hnex t ht) h
      have := h6 m hmiss
      rw [usedAt, this] at hused
      cases hs : hm.slots[m]? with
      | none =>
        simp only [hs] at hused
        exact absurd hused (by simp)
      | some s =>
        simp only [hs] at hused
        have hsu := hnouse s (List.getElem?_mem hs)
        rw [hsu] at hused
        exact absurd hused (by simp)
    · rintro ⟨c, hc, htc⟩
      obtain ⟨slot, _, hslot'⟩ := h5 c hc m (by rw [Nat.zero_add]; exact htc)
      simp [usedAt, hslot']
  · -- cardinality: exactly P slots used
    have himg : (Finset.range st'.slots.length).filter (fun m => usedAt st'.slots m = true)
        = (Finset.range (ungroupedIdxs hm).length).image
            (fun c => (targetSlot hm c).getD 0) := by
      ext m
      simp only [Finset.mem_filter, Finset.mem_image, Finset.mem_range]
      constructor
      · rintro ⟨hmlen, hused⟩
        by_contra hnex
        push_neg at hnex
        have hmiss : ∀ t, t < (ungroupedIdxs hm).length → targetSlot hm (0 + t) ≠ some m := by
          intro t ht hcontra
          rw [Nat.zero_add] at hcontra
          exact absurd (by rw [hcontra]; rfl) (hnex t ht)
        have := h6 m hmiss
        rw [usedAt, this] at hused
        cases hs : hm.slots[m]? with
        | none =>
          simp only [hs] at hused
          exact absurd hused (by simp)
        | some s =>
          simp only [hs] at hused
          have hsu := hnouse s (List.getElem?_mem hs)
          rw [hsu] at hused
          exact absurd hused (by simp)
      · rintro ⟨c, hc, rfl⟩
        obtain ⟨j, htc, _, _, _⟩ := htj c hc
        obtain ⟨slot, hslot, hslot'⟩ := h5 c hc j (by rw [Nat.zero_add]; exact htc)
        rw [htc]
        refine ⟨?_, ?_⟩
        · have hjlen : j < hm.slots.length := (List.getElem?_eq_some_iff.mp hslot).1
          simp only [Option.getD_some]
          omega
        · simp only [Option.getD_some]
          simp [usedAt, hslot']
    rw [himg, Finset.card_image_of_injOn, Finset.card_range]
    intro c hc c' hc' heq
    simp only [Finset.mem_coe, Finset.mem_range] at hc hc'
    have heq' : (targetSlot hm c).getD 0 = (targetSlot hm c').getD 0 := heq
    obtain ⟨j, htc, _, _, _⟩ := htj c hc
    obtain ⟨j', htc', _, _, _⟩ := htj c' hc'
    rw [htc, htc'] at heq'
    simp only [Option.getD_some] at heq'
    subst heq'
    exact targetSlot_inj hm c c' j htc htc'

theorem claim_C1_witness :
    ∃ st', getFinalAssignment hmA false = some st' ∧ st'.fatal = false ∧
      st'.slots.length = hmA.slots.length ∧
      (∀ c, c < (ungroupedIdxs hmA).length → ∃ j slot idx pin,
        targetSlot hmA c = some j ∧
        hmA.begin_slot ≤ j ∧ j ≤ hmA.end_slot ∧
        hmA.slots[j]? = some slot ∧ slot.blocked = false ∧
        st'.slots[j]? = some { slot with used := true } ∧
        (ungroupedIdxs hmA)[c]? = some idx ∧
        hmA.pins[idx]? = some pin ∧
        st'.pins[idx]? = some (placedPin pin slot)) ∧
      (∀ c c' j2, targetSlot hmA c = some j2 → targetSlot hmA c' = some j2 → c = c') ∧
      (∀ m, usedAt st'.slots m = true ↔
        ∃ c, c < (ungroupedIdxs hmA).length ∧ targetSlot hmA c = some m) ∧
      ((Finset.range st'.slots.length).filter (fun m => usedAt st'.slots m = true)).card
        = (ungroupedIdxs hmA).length :=
  claim_C1 hmA (by decide) (by decide) (by decide) (by decide) (by decide) (by decide)
    (by decide) (by decide)
    (by
      intro r hr
      have hr3 : r < 3 := hr
      interval_cases r
      · exact ⟨[5, hungarian_fail], rfl, by decide⟩
      · exact ⟨[1, 9], rfl, by decide⟩
      · exact ⟨[hungarian_fail, 2], rfl, by decide⟩)

/- ### An all-skip run of the ungrouped materializer (claim C9) -/

theorem pinLoop_skip_all (hm : HM) (am : Bool)
    (hrows : hm.non_blocked_slots ≤ hm.assignment.length)
    (hunb : hm.non_blocked_slots = 0 ∨
      ∃ v, nthUnb hm.slots hm.begin_slot (hm.non_blocked_slots - 1) = some v) :
    ∀ (idxs : List Nat) (c0 : Nat) (st : St),
      st.pins = hm.pins → st.slots = hm.slots →
      (∀ idx ∈ idxs, idx < hm.pins.length) →
      (∀ idx ∈ idxs, ∃ pin, hm.pins[idx]? = some pin ∧
        (pin.inGroup = true ∨ pin.placed = true ∨
          (am = true ∧ hm.mirror_map pin.bterm = none))) →
      (∀ r, r < hm.non_blocked_slots → ∃ mrow, hm.hungarian_matrix[r]? = some mrow ∧
        c0 + (idxs.filter (isUngrouped hm.pins)).length ≤ mrow.length) →
      ∃ w, pinLoop hm am idxs c0 st = some { st with warns := w } := by
  intro idxs
  induction idxs with
  | nil =>
    intro c0 st _ _ _ _ _
    exact ⟨st.warns, rfl⟩
  | cons idx rest ih =>
    intro c0 st hpins hslots hb hsk hcells
    obtain ⟨pin, hpin, hdisj⟩ := hsk idx (by simp)
    have hpinst : st.pins[idx]? = some pin := by rw [hpins]; exact hpin
    by_cases hg : pin.inGroup = true
    · have hfu : isUngrouped hm.pins idx = false := by
        simp [isUngrouped, hpin, hg]
      have hstep : pinLoop hm am (idx :: rest) c0 st = pinLoop hm am rest c0 st := by
        simp only [pinLoop, hpinst, hg, if_pos]
      rw [hstep]
      apply ih c0 st hpins hslots (fun i2 hi2 => hb i2 (by simp [hi2])) 
        (fun i2 hi2 => hsk i2 (by simp [hi2]))
      intro r hr
      obtain ⟨mrow, hmrow, hlen⟩ := hcells r hr
      refine ⟨mrow, hmrow, ?_⟩
      rw [List.filter_cons, hfu] at hlen
      simpa using hlen
    · rw [Bool.not_eq_true] at hg
      have hfu : isUngrouped hm.pins idx = true := by
        simp [isUngrouped, hpin, hg]
      have hcond : (am = true ∧ hm.mirror_map pin.bterm = none) ∨ pin.placed = true := by
        rcases hdisj with h | h | h
        · rw [hg] at h; exact absurd h (by simp)
        · exact Or.inr h
        · exact Or.inl h
      have hflen : (List.filter (isUngrouped hm.pins) (idx :: rest)).length
          = (List.filter (isUngrouped hm.pins) rest).length + 1 := by
        rw [List.filter_cons, hfu]
        simp
      obtain ⟨w1, hw1⟩ := rowLoop_skip hm am idx c0 pin hm.non_blocked_slots 0
        hm.begin_slot st hpinst hcond
        (by
          intro e he
          rw [Nat.zero_add]
          exact ⟨hm.assignment[e], List.getElem?_eq_getElem (by omega)⟩)
        (by
          intro e he hcol
          rw [Nat.zero_add] at hcol ⊢
          obtain ⟨mrow, hmrow, hlen⟩ := hcells e he
          rw [hflen] at hlen
          refine ⟨mrow[c0], ?_⟩
          rw [hmrow]
          simp only [Option.some_bind]
          exact List.getElem?_eq_getElem (by omega))
        (by
          rw [hslots]
          exact hunb)
      have hfatal1 : ({ st with warns := w1 } : St).fatal = false ∨
          ({ st with warns := w1 } : St).fatal = st.fatal := Or.inr rfl
      have hstep : pinLoop hm am (idx :: rest) c0 st =
          if ({ st with warns := w1 } : St).fatal = true then some { st with warns := w1 }
          else pinLoop hm am rest (c0 + 1) { st with warns := w1 } := by
        simp only [pinLoop, hpinst, hg, Bool.false_eq_true, if_neg, hw1, not_false_iff]
      by_cases hf : st.fatal = true
      · rw [hstep]
        have : ({ st with warns := w1 } : St).fatal = true := hf
        rw [if_pos this]
        exact ⟨w1, rfl⟩
      · rw [hstep]
        have hff : ({ st with warns := w1 } : St).fatal = true ↔ False := by
          simp only [iff_false]
          exact fun h => hf h
        rw [if_neg (hff.mp)]
        obtain ⟨w2, hw2⟩ := ih (c0 + 1) { st with warns := w1 } hpins hslots
          (fun i2 hi2 => hb i2 (by simp [hi2]))
          (fun i2 hi2 => hsk i2 (by simp [hi2]))
          (by
            intro r hr
            obtain ⟨mrow, hmrow, hlen⟩ := hcells r hr
            rw [hflen] at hlen
            exact ⟨mrow, hmrow, by omega⟩)
        exact ⟨w2, hw2⟩

/-- C9: the ungrouped materializer skips, without any state change, every pin
already marked placed and (in mirror mode) every pin without a mirror
partner: when all pins of the section satisfy one of those conditions (or are
grouped), `getFinalAssignment` changes no pin and no slot and pushes nothing;
re-running the materializer over an unchanged assignment therefore leaves a
completed placement exactly as it was. -/
theorem claim_C9 (hm : HM) (am : Bool)
    (hb : ∀ idx ∈ hm.pin_indices, idx < hm.pins.length)
    (hsk : ∀ idx ∈ hm.pin_indices, ∃ pin, hm.pins[idx]? = some pin ∧
      (pin.inGroup = true ∨ pin.placed = true ∨
        (am = true ∧ hm.mirror_map pin.bterm = none)))
    (hrows : hm.non_blocked_slots ≤ hm.assignment.length)
    (hcells : ∀ r, r < hm.non_blocked_slots → ∃ mrow, hm.hungarian_matrix[r]? = some mrow ∧
      (hm.pin_indices.filter (isUngrouped hm.pins)).length ≤ mrow.length)
    (hunb : hm.non_blocked_slots = 0 ∨
      ∃ v, nthUnb hm.slots hm.begin_slot (hm.non_blocked_slots - 1) = some v) :
    ∃ st', getFinalAssignment hm am = some st' ∧
      st'.pins = hm.pins ∧ st'.slots = hm.slots ∧ st'.out = [] ∧ st'.fatal = false := by
  obtain ⟨w, hw⟩ := pinLoop_skip_all hm am hrows hunb hm.pin_indices 0 (initSt hm)
    rfl rfl hb hsk
    (by
      intro r hr
      obtain ⟨mrow, hmrow, hlen⟩ := hcells r hr
      exact ⟨mrow, hmrow, by omega⟩)
  exact ⟨{ initSt hm with warns := w }, hw, rfl, rfl, rfl, rfl⟩

theorem claim_C9_witness :
    ∃ st', getFinalAssignment hmB false = some st' ∧
      st'.pins = hmB.pins ∧ st'.slots = hmB.slots ∧ st'.out = [] ∧ st'.fatal = false :=
  claim_C9 hmB false (by decide) (by decide) (by decide)
    (by
      intro r hr
      have hr3 : r < 3 := hr
      interval_cases r
      · exact ⟨[5, hungarian_fail], rfl, by decide⟩
      · exact ⟨[1, 9], rfl, by decide⟩
      · exact ⟨[hungarian_fail, 2], rfl, by decide⟩)
    (Or.inr ⟨2, by decide⟩)

/- ### The instrumented pin loop agrees with the pin loop and is compositional -/

theorem pinLoop_eq_pinLoopC (hm : HM) (am : Bool) :
    ∀ (idxs : List Nat) (col : Nat) (st : St),
      pinLoop hm am idxs col st = (pinLoopC hm am idxs col st).map Prod.fst := by
  intro idxs
  induction idxs with
  | nil => intro col st; rfl
  | cons idx rest ih =>
    intro col st
    simp only [pinLoop, pinLoopC]
    cases st.pins[idx]? with
    | none => rfl
    | some pin =>
      by_cases hg : pin.inGroup = true
      · simp only [hg, if_pos]
        exact ih col st
      · rw [Bool.not_eq_true] at hg
        simp only [hg, Bool.false_eq_true, if_neg, not_false_iff]
        cases rowLoop hm am idx col hm.non_blocked_slots 0 hm.begin_slot st with
        | none => rfl
        | some st' =>
          by_cases hf : st'.fatal = true
          · simp only [hf, ite_true]
            rfl
          · rw [Bool.not_eq_true] at hf
            simp only [hf, Bool.false_eq_true, ite_false]
            exact ih (col + 1) st'

theorem pinLoopC_append (hm : HM) (am : Bool) :
    ∀ (l1 : List Nat) (l2 : List Nat) (col : Nat) (st stMid : St) (colMid : Nat),
      pinLoopC hm am l1 col st = some (stMid, colMid) → stMid.fatal = false →
      pinLoopC hm am (l1 ++ l2) col st = pinLoopC hm am l2 colMid stMid := by
  intro l1
  induction l1 with
  | nil =>
    intro l2 col st stMid colMid h _
    simp only [pinLoopC, Option.some.injEq, Prod.mk.injEq] at h
    obtain ⟨h1, h2⟩ := h
    subst h1; subst h2
    rfl
  | cons idx rest ih =>
    intro l2 col st stMid colMid h hfat
    simp only [List.cons_append, pinLoopC] at h ⊢
    cases hp : st.pins[idx]? with
    | none => rw [hp] at h; exact absurd h (by simp)
    | some pin =>
      rw [hp] at h
      simp only at h ⊢
      by_cases hg : pin.inGroup = true
      · simp only [hg, if_pos] at h ⊢
        exact ih l2 col st stMid colMid h hfat
      · rw [Bool.not_eq_true] at hg
        simp only [hg, Bool.false_eq_true, if_neg, not_false_iff] at h ⊢
        cases hr : rowLoop hm am idx col hm.non_blocked_slots 0 hm.begin_slot st with
        | none => rw [hr] at h; exact absurd h (by simp)
        | some st' =>
          rw [hr] at h
          simp only at h
          by_cases hf : st'.fatal = true
          · simp only [hf, ite_true] at h
            simp only [Option.some.injEq, Prod.mk.injEq] at h
            obtain ⟨h1, _⟩ := h
            subst h1
            exact absurd hf (by rw [hfat]; simp)
          · rw [Bool.not_eq_true] at hf
            simp only [hf, Bool.false_eq_true, ite_false] at h ⊢
            exact ih l2 (col + 1) st' stMid colMid h hfat

theorem getSlotIdxByPosition_spec :
    ∀ (slots : List Slot) (p : Point) (lay : Int) (k : Nat),
      getSlotIdxByPosition slots p lay = some k →
      ∃ s, slots[k]? = some s ∧ s.pos = p ∧ s.layer = lay := by
  intro slots
  induction slots with
  | nil => intro p lay k h; simp [getSlotIdxByPosition] at h
  | cons s rest ih =>
    intro p lay k h
    simp only [getSlotIdxByPosition] at h
    by_cases hc : s.pos = p ∧ s.layer = lay
    · rw [if_pos hc] at h
      simp only [Option.some.injEq] at h
      subst h
      exact ⟨s, by simp, hc⟩
    · rw [if_neg hc] at h
      cases hr : getSlotIdxByPosition rest p lay with
      | none => rw [hr] at h; exact absurd h (by simp)
      | some k0 =>
        rw [hr] at h
        simp at h
        subst h
        obtain ⟨s0, hs0, hp0⟩ := ih p lay k0 hr
        exact ⟨s0, by rw [List.getElem?_cons_succ]; exact hs0, hp0⟩

/-- C4: when the matched matrix cell of an (unplaced, ungrouped) pin holds the
`INFEASIBLE` sentinel, `getFinalAssignment` records warning PPL-33 for that
pin and nevertheless proceeds: the pin receives the slot's position and layer,
is marked placed, the slot is marked used, and the run ends without a fatal
error. -/
theorem claim_C4 (hm : HM) (pre : List Nat) (aIdx : Nat) (stPre : St) (colA : Nat)
    (pin : IOPin) (r j : Nat) (slot : Slot)
    (hsplit : hm.pin_indices = pre ++ [aIdx])
    (hpre : pinLoopC hm false pre 0 (initSt hm) = some (stPre, colA))
    (hfat : stPre.fatal = false)
    (hpin : stPre.pins[aIdx]? = some pin)
    (hg : pin.inGroup = false) (hunpl : pin.placed = false)
    (hr : firstMatch hm.assignment colA 0 hm.non_blocked_slots = some r)
    (hnth : nthUnb stPre.slots hm.begin_slot r = some j)
    (hslot : stPre.slots[j]? = some slot)
    (hcell : (hm.hungarian_matrix[r]?).bind (fun mrow => mrow[colA]?) = some hungarian_fail)
    (hreads : ∀ e, e < r → ∃ a, hm.assignment[e]? = some a) :
    ∃ st', getFinalAssignment hm false = some st' ∧
      aIdx ∈ st'.warns ∧
      st'.pins[aIdx]? = some (placedPin pin slot) ∧
      st'.slots[j]? = some { slot with used := true } ∧
      st'.fatal = false := by
  obtain ⟨hasr, _, hrlt, hprev⟩ := firstMatch_spec hm.assignment colA _ 0 r hr
  rw [Nat.zero_add] at hrlt
  have hrow : rowLoop hm false aIdx colA hm.non_blocked_slots 0 hm.begin_slot stPre =
      some (placeResult stPre aIdx pin j slot hungarian_fail) := by
    apply rowLoop_place hm aIdx colA r hm.non_blocked_slots 0 hm.begin_slot stPre j pin slot
    · intro e he
      obtain ⟨a, ha⟩ := hreads e he
      refine ⟨a, by rw [Nat.zero_add]; exact ha, ?_⟩
      intro haeq
      exact hprev e (by omega) (by omega) (by rw [ha, haeq])
    · rw [Nat.zero_add]; exact hasr
    · exact hrlt
    · exact hnth
    · rw [Nat.zero_add]; exact hcell
    · exact hpin
    · exact hunpl
    · exact hslot
  have hlast : pinLoopC hm false [aIdx] colA stPre =
      some (placeResult stPre aIdx pin j slot hungarian_fail, colA + 1) := by
    simp only [pinLoopC, hpin, hg, Bool.false_eq_true, if_neg, hrow, not_false_iff]
    have hf1 : (placeResult stPre aIdx pin j slot hungarian_fail).fatal = false := hfat
    simp only [hf1, Bool.false_eq_true, ite_false]
  have hrun : getFinalAssignment hm false =
      some (placeResult stPre aIdx pin j slot hungarian_fail) := by
    rw [getFinalAssignment, hsplit, pinLoop_eq_pinLoopC,
      pinLoopC_append hm false pre [aIdx] 0 (initSt hm) stPre colA hpre hfat, hlast]
    rfl
  have hjlen : j < stPre.slots.length := (List.getElem?_eq_some_iff.mp hslot).1
  have halen : aIdx < stPre.pins.length := (List.getElem?_eq_some_iff.mp hpin).1
  refine ⟨placeResult stPre aIdx pin j slot hungarian_fail, hrun, ?_, ?_, ?_, hfat⟩
  · simp [placeResult]
  · simp only [placeResult]
    exact List.getElem?_set_self halen
  · simp only [placeResult]
    exact List.getElem?_set_self hjlen

theorem claim_C4_witness :
    ∃ st', getFinalAssignment hmC false = some st' ∧
      0 ∈ st'.warns ∧
      st'.pins[0]? = some (placedPin (wpin 10) (wslot 0)) ∧
      st'.slots[0]? = some { wslot 0 with used := true } ∧
      st'.fatal = false :=
  claim_C4 hmC [] 0 (initSt hmC) 0 (wpin 10) 0 0 (wslot 0)
    (by decide) rfl rfl (by decide) (by decide) (by decide) (by decide) (by decide)
    (by decide) (by decide) (fun e he => absurd he (by omega))

theorem skipBlocked_self_of_unblocked (slots : List Slot) (j : Nat)
    (h : blockedAt slots j = some false) : skipBlocked slots j = some j := by
  cases hs : slots[j]? with
  | none => rw [blockedAt, hs] at h; exact absurd h (by simp)
  | some s =>
    have hb : s.blocked = false := by rw [blockedAt, hs] at h; simpa using h
    have hjl : j < slots.length := (List.getElem?_eq_some_iff.mp hs).1
    rw [skipBlocked]
    have hfuel : slots.length + 1 - j = (slots.length - j) + 1 := by omega
    rw [hfuel]
    simp only [skipBlockedF, hs, hb]
    simp

theorem nthUnb_skip_self (slots : List Slot) :
    ∀ k i j, nthUnb slots i k = some j → skipBlocked slots j = some j := by
  intro k i j h
  obtain ⟨_, _, hbl⟩ := nthUnb_some slots k i j h
  exact skipBlocked_self_of_unblocked slots j hbl

/-- C3: in mirror mode, when `getFinalAssignment` places an ungrouped pin `a`
(at index `aIdx`) that has mirror partner `b` (at index `mIdx`), the partner
is placed at the external reflection of `a`'s position on `a`'s layer, the
slot whose position and layer exactly equal the partner's assigned position
and layer (located by exact lookup, index `k2`) is marked used, and both pins
are marked placed. -/
theorem claim_C3 (hm : HM) (pre : List Nat) (aIdx : Nat) (stPre : St) (colA : Nat)
    (pin : IOPin) (r j : Nat) (slot : Slot) (cell : Int) (bt mIdx : Nat) (mpin : IOPin)
    (k2 : Nat)
    (hsplit : hm.pin_indices = pre ++ [aIdx])
    (hpre : pinLoopC hm true pre 0 (initSt hm) = some (stPre, colA))
    (hfat : stPre.fatal = false)
    (hpin : stPre.pins[aIdx]? = some pin)
    (hg : pin.inGroup = false) (hunpl : pin.placed = false)
    (hr : firstMatch hm.assignment colA 0 hm.non_blocked_slots = some r)
    (hnth : nthUnb stPre.slots hm.begin_slot r = some j)
    (hslot : stPre.slots[j]? = some slot)
    (hcell : (hm.hungarian_matrix[r]?).bind (fun mrow => mrow[colA]?) = some cell)
    (hreads : ∀ e, e < r → ∃ a, hm.assignment[e]? = some a)
    (hbt : hm.mirror_map pin.bterm = some bt)
    (hmIdx : hm.pin_idx_of_bterm bt = mIdx)
    (hne : mIdx ≠ aIdx)
    (hmpin : stPre.pins[mIdx]? = some mpin)
    (hlook : getSlotIdxByPosition (stPre.slots.set j { slot with used := true })
      (hm.reflect slot.pos) slot.layer = some k2) :
    ∃ st' sk, getFinalAssignment hm true = some st' ∧ st'.fatal = false ∧
      st'.pins[aIdx]? = some (placedPin pin slot) ∧
      st'.pins[mIdx]? = some (mirrorPin mpin (hm.reflect slot.pos) slot.layer) ∧
      (∀ pa pb, st'.pins[aIdx]? = some pa → st'.pins[mIdx]? = some pb →
        pb.pos = hm.reflect pa.pos ∧ pb.layer = pa.layer ∧
        pa.placed = true ∧ pb.placed = true) ∧
      (stPre.slots.set j { slot with used := true })[k2]? = some sk ∧
      sk.pos = hm.reflect slot.pos ∧ sk.layer = slot.layer ∧
      st'.slots[k2]? = some { sk with used := true } := by
  obtain ⟨hasr, _, hrlt, hprev⟩ := firstMatch_spec hm.assignment colA _ 0 r hr
  rw [Nat.zero_add] at hrlt
  obtain ⟨sk, hsk, hskpos, hsklay⟩ := getSlotIdxByPosition_spec _ _ _ k2 hlook
  have halen : aIdx < stPre.pins.length := (List.getElem?_eq_some_iff.mp hpin).1
  have hmlen : mIdx < stPre.pins.length := (List.getElem?_eq_some_iff.mp hmpin).1
  have hjlen : j < stPre.slots.length := (List.getElem?_eq_some_iff.mp hslot).1
  have hk2len : k2 < stPre.slots.length := by
    have := (List.getElem?_eq_some_iff.mp hsk).1
    simpa using this
  have hmpin2 : (stPre.pins.set aIdx (placedPin pin slot))[mIdx]? = some mpin := by
    rw [List.getElem?_set_ne (fun h => hne h.symm)]
    exact hmpin
  have hreach := rowLoop_reach hm true aIdx colA r hm.non_blocked_slots 0 hm.begin_slot
    stPre j
    (by
      intro e he
      obtain ⟨a, ha⟩ := hreads e he
      refine ⟨a, by rw [Nat.zero_add]; exact ha, ?_⟩
      intro haeq
      exact hprev e (by omega) (by omega) (by rw [ha, haeq]))
    hrlt hnth
  obtain ⟨rem, hrem⟩ : ∃ rem, hm.non_blocked_slots - r = rem + 1 :=
    ⟨hm.non_blocked_slots - r - 1, by omega⟩
  have hmid := rowLoop_mirror_ok hm aIdx colA rem r j stPre pin slot cell bt mIdx mpin
    k2 sk (nthUnb_skip_self stPre.slots r hm.begin_slot j hnth)
    hasr hcell hpin hunpl hbt hslot hmIdx.symm hmpin2 hlook hsk
  have hrow : rowLoop hm true aIdx colA hm.non_blocked_slots 0 hm.begin_slot stPre =
      some (mirrorResultOk stPre aIdx pin j slot cell mIdx mpin (hm.reflect slot.pos) k2 sk) := by
    rw [hreach, Nat.zero_add, hrem]
    exact hmid
  have hfat1 : (mirrorResultOk stPre aIdx pin j slot cell mIdx mpin
      (hm.reflect slot.pos) k2 sk).fatal = false := hfat
  have hlast : pinLoopC hm true [aIdx] colA stPre =
      some (mirrorResultOk stPre aIdx pin j slot cell mIdx mpin (hm.reflect slot.pos) k2 sk,
        colA + 1) := by
    simp only [pinLoopC, hpin, hg, Bool.false_eq_true, if_neg, hrow, hfat1, ite_false,
      not_false_iff]
  have hrun : getFinalAssignment hm true =
      some (mirrorResultOk stPre aIdx pin j slot cell mIdx mpin (hm.reflect slot.pos) k2 sk) := by
    rw [getFinalAssignment, hsplit, pinLoop_eq_pinLoopC,
      pinLoopC_append hm true pre [aIdx] 0 (initSt hm) stPre colA hpre hfat, hlast]
    rfl
  have hpa : (mirrorResultOk stPre aIdx pin j slot cell mIdx mpin
      (hm.reflect slot.pos) k2 sk).pins[aIdx]? = some (placedPin pin slot) := by
    simp only [mirrorResultOk]
    rw [List.getElem?_set_ne hne]
    exact List.getElem?_set_self halen
  have hpb : (mirrorResultOk stPre aIdx pin j slot cell mIdx mpin
      (hm.reflect slot.pos) k2 sk).pins[mIdx]? =
      some (mirrorPin mpin (hm.reflect slot.pos) slot.layer) := by
    simp only [mirrorResultOk]
    exact List.getElem?_set_self (by simpa using hmlen)
  refine ⟨_, sk, hrun, hfat1, hpa, hpb, ?_, hsk, hskpos, hsklay, ?_⟩
  · intro pa pb hpa2 hpb2
    rw [hpa] at hpa2
    rw [hpb] at hpb2
    have h1 : pa = placedPin pin slot := Option.some_inj.mp hpa2.symm
    have h2 : pb = mirrorPin mpin (hm.reflect slot.pos) slot.layer := Option.some_inj.mp hpb2.symm
    subst h1; subst h2
    simp [placedPin, mirrorPin]
  · simp only [mirrorResultOk]
    exact List.getElem?_set_self (by simpa using hk2len)

theorem claim_C3_witness :
    ∃ st' sk, getFinalAssignment hmD true = some st' ∧ st'.fatal = false ∧
      st'.pins[0]? = some (placedPin (wpin 10) (wslot 0)) ∧
      st'.pins[1]? = some (mirrorPin (wpin 11) (hmD.reflect (wslot 0).pos) (wslot 0).layer) ∧
      (∀ pa pb, st'.pins[0]? = some pa → st'.pins[1]? = some pb →
        pb.pos = hmD.reflect pa.pos ∧ pb.layer = pa.layer ∧
        pa.placed = true ∧ pb.placed = true) ∧
      (hmD.slots.set 0 { wslot 0 with used := true })[1]? = some sk ∧
      sk.pos = hmD.reflect (wslot 0).pos ∧ sk.layer = (wslot 0).layer ∧
      st'.slots[1]? = some { sk with used := true } :=
  claim_C3 hmD [] 0 (initSt hmD) 0 (wpin 10) 0 0 (wslot 0) 5 11 1 (wpin 11) 1
    (by decide) rfl rfl (by decide) (by decide) (by decide) (by decide) (by decide)
    (by decide) (by decide) (fun e he => absurd he (by omega)) (by decide) (by decide)
    (by decide) (by decide) (by decide)

/-- C8: when a mirrored pin's reflected position and layer match no slot in
the slot grid, `getFinalAssignment` raises the fatal error (PPL-82 throws,
ending processing with the fatal flag set); the final state preserves all
pins other than the failing pin and its partner, preserves every slot's
position, layer and blocked flag, keeps every previously used slot used, and
changes no slot other than the failing pin's own slot `j` (which its
placement had already marked used before the error). -/
theorem claim_C8 (hm : HM) (pre post : List Nat) (aIdx : Nat) (stPre : St) (colA : Nat)
    (pin : IOPin) (r j : Nat) (slot : Slot) (cell : Int) (bt mIdx : Nat)
    (hsplit : hm.pin_indices = pre ++ aIdx :: post)
    (hpre : pinLoopC hm true pre 0 (initSt hm) = some (stPre, colA))
    (hfat : stPre.fatal = false)
    (hpin : stPre.pins[aIdx]? = some pin)
    (hg : pin.inGroup = false) (hunpl : pin.placed = false)
    (hr : firstMatch hm.assignment colA 0 hm.non_blocked_slots = some r)
    (hnth : nthUnb stPre.slots hm.begin_slot r = some j)
    (hslot : stPre.slots[j]? = some slot)
    (hcell : (hm.hungarian_matrix[r]?).bind (fun mrow => mrow[colA]?) = some cell)
    (hreads : ∀ e, e < r → ∃ a, hm.assignment[e]? = some a)
    (hbt : hm.mirror_map pin.bterm = some bt)
    (hmIdx : hm.pin_idx_of_bterm bt = mIdx)
    (hmpinlen : mIdx < stPre.pins.length)
    (hlook : getSlotIdxByPosition (stPre.slots.set j { slot with used := true })
      (hm.reflect slot.pos) slot.layer = none) :
    ∃ st', getFinalAssignment hm true = some st' ∧ st'.fatal = true ∧
      (∀ q : Nat, q ≠ aIdx → q ≠ mIdx → st'.pins[q]? = stPre.pins[q]?) ∧
      (∀ m : Nat, m ≠ j → st'.slots[m]? = stPre.slots[m]?) ∧
      st'.slots[j]? = some { slot with used := true } ∧
      (∀ (m : Nat) (s s' : Slot), stPre.slots[m]? = some s → st'.slots[m]? = some s' →
        s'.pos = s.pos ∧ s'.layer = s.layer ∧ s'.blocked = s.blocked ∧
          (s.used = true → s'.used = true)) := by
  obtain ⟨hasr, _, hrlt, hprev⟩ := firstMatch_spec hm.assignment colA _ 0 r hr
  rw [Nat.zero_add] at hrlt
  have hjlen : j < stPre.slots.length := (List.getElem?_eq_some_iff.mp hslot).1
  obtain ⟨mpin2, hmpin⟩ : ∃ mpin2,
      (stPre.pins.set aIdx (placedPin pin slot))[mIdx]? = some mpin2 :=
    ⟨_, List.getElem?_eq_getElem (by simpa using hmpinlen)⟩
  have hreach := rowLoop_reach hm true aIdx colA r hm.non_blocked_slots 0 hm.begin_slot
    stPre j
    (by
      intro e he
      obtain ⟨a, ha⟩ := hreads e he
      refine ⟨a, by rw [Nat.zero_add]; exact ha, ?_⟩
      intro haeq
      exact hprev e (by omega) (by omega) (by rw [ha, haeq]))
    hrlt hnth
  obtain ⟨rem, hrem⟩ : ∃ rem, hm.non_blocked_slots - r = rem + 1 :=
    ⟨hm.non_blocked_slots - r - 1, by omega⟩
  have hmid := rowLoop_mirror_fatal hm aIdx colA rem r j stPre pin slot cell bt mIdx mpin2
    (nthUnb_skip_self stPre.slots r hm.begin_slot j hnth)
    hasr hcell hpin hunpl hbt hslot hmIdx.symm hmpin hlook
  have hrow : rowLoop hm true aIdx colA hm.non_blocked_slots 0 hm.begin_slot stPre =
      some (mirrorResultFatal stPre aIdx pin j slot cell mIdx mpin2 (hm.reflect slot.pos)) := by
    rw [hreach, Nat.zero_add, hrem]
    exact hmid
  have hfat1 : (mirrorResultFatal stPre aIdx pin j slot cell mIdx mpin2
      (hm.reflect slot.pos)).fatal = true := rfl
  have hlast : pinLoopC hm true (aIdx :: post) colA stPre =
      some (mirrorResultFatal stPre aIdx pin j slot cell mIdx mpin2 (hm.reflect slot.pos),
        colA) := by
    simp only [pinLoopC, hpin, hg, Bool.false_eq_true, if_neg, hrow, hfat1, ite_true,
      not_false_iff]
  have hrun : getFinalAssignment hm true =
      some (mirrorResultFatal stPre aIdx pin j slot cell mIdx mpin2 (hm.reflect slot.pos)) := by
    rw [getFinalAssignment, hsplit, pinLoop_eq_pinLoopC,
      pinLoopC_append hm true pre (aIdx :: post) 0 (initSt hm) stPre colA hpre hfat, hlast]
    rfl
  refine ⟨_, hrun, hfat1, ?_, ?_, ?_, ?_⟩
  · intro q hqa hqm
    simp only [mirrorResultFatal]
    rw [List.getElem?_set_ne (fun h => hqm h.symm), List.getElem?_set_ne (fun h => hqa h.symm)]
  · intro m hmj
    simp only [mirrorResultFatal]
    rw [List.getElem?_set_ne (fun h => hmj h.symm)]
  · simp only [mirrorResultFatal]
    exact List.getElem?_set_self hjlen
  · intro m s s' hs hs'
    by_cases hmj : m = j
    · subst hmj
      have hse : s = slot := Option.some_inj.mp (hs.symm.trans hslot)
      have hread : (mirrorResultFatal stPre aIdx pin m slot cell mIdx mpin2
          (hm.reflect slot.pos)).slots[m]? = some { slot with used := true } := by
        simp only [mirrorResultFatal]
        exact List.getElem?_set_self hjlen
      rw [hread] at hs'
      have hse' : s' = { slot with used := true } := (Option.some_inj.mp hs').symm
      rw [hse, hse']
      exact ⟨rfl, rfl, rfl, fun _ => rfl⟩
    · have : (mirrorResultFatal stPre aIdx pin j slot cell mIdx mpin2
          (hm.reflect slot.pos)).slots[m]? = stPre.slots[m]? := by
        simp only [mirrorResultFatal]
        rw [List.getElem?_set_ne (fun h => hmj h.symm)]
      rw [this, hs] at hs'
      have hse' : s' = s := (Option.some_inj.mp hs').symm
      rw [hse']
      exact ⟨rfl, rfl, rfl, fun h => h⟩

theorem claim_C8_witness :
    ∃ st', getFinalAssignment hmE true = some st' ∧ st'.fatal = true ∧
      (∀ q : Nat, q ≠ 0 → q ≠ 1 → st'.pins[q]? = (initSt hmE).pins[q]?) ∧
      (∀ m : Nat, m ≠ 0 → st'.slots[m]? = (initSt hmE).slots[m]?) ∧
      st'.slots[0]? = some { wslot 0 with used := true } ∧
      (∀ (m : Nat) (s s' : Slot), (initSt hmE).slots[m]? = some s →
        st'.slots[m]? = some s' →
        s'.pos = s.pos ∧ s'.layer = s.layer ∧ s'.blocked = s.blocked ∧
          (s.used = true → s'.used = true)) :=
  claim_C8 hmE [] [] 0 (initSt hmE) 0 (wpin 10) 0 0 (wslot 0) 5 11 1
    (by decide) rfl rfl (by decide) (by decide) (by decide) (by decide) (by decide)
    (by decide) (by decide) (fun e he => absurd he (by omega)) (by decide) (by decide)
    (by decide) (by decide)

/- ### The ungrouped matrix builder (claim C2) -/

theorem rowCosts_eq (hm : HM) (p : Point) :
    ∀ idxs : List Nat, (∀ idx ∈ idxs, idx < hm.pins.length) →
      rowCosts hm p idxs =
        some ((idxs.filter (isUngrouped hm.pins)).map (fun idx => hm.hpwl idx p)) := by
  intro idxs
  induction idxs with
  | nil => intro _; rfl
  | cons idx rest ih =>
    intro hb
    have hlen : idx < hm.pins.length := hb idx (by simp)
    have hpin : hm.pins[idx]? = some hm.pins[idx] := List.getElem?_eq_getElem hlen
    have htail := ih (fun i2 hi2 => hb i2 (by simp [hi2]))
    simp only [rowCosts, hpin, htail, List.filter_cons]
    by_cases hg : hm.pins[idx].inGroup = true
    · have hfu : isUngrouped hm.pins idx = false := by simp [isUngrouped, hpin, hg]
      simp [hg, hfu]
    · rw [Bool.not_eq_true] at hg
      have hfu : isUngrouped hm.pins idx = true := by simp [isUngrouped, hpin, hg]
      simp [hg, hfu]

theorem matrixRow_eq (hm : HM) (p : Point)
    (hbp : ∀ idx ∈ hm.pin_indices, idx < hm.pins.length) :
    matrixRow hm p = some ((ungroupedIdxs hm).map (fun idx => hm.hpwl idx p) ++
      List.replicate (hm.pin_indices.length - (ungroupedIdxs hm).length) hungarian_fail) := by
  rw [matrixRow, rowCosts_eq hm p hm.pin_indices hbp]
  simp [ungroupedIdxs]

theorem createMatrixGo_eq (hm : HM)
    (hbp : ∀ idx ∈ hm.pin_indices, idx < hm.pins.length)
    (hend : hm.end_slot < hm.slots.length) :
    ∀ fuel i, fuel = hm.end_slot + 1 - i → i ≤ hm.end_slot + 1 →
      ∃ m, createMatrixGo hm i fuel = some m ∧
        m.length = (unblockedIn hm.slots i hm.end_slot).length ∧
        (∀ (t si : Nat), (unblockedIn hm.slots i hm.end_slot)[t]? = some si →
          ∃ slot : Slot, hm.slots[si]? = some slot ∧ slot.blocked = false ∧
            m[t]? = some ((ungroupedIdxs hm).map (fun idx => hm.hpwl idx slot.pos) ++
              List.replicate (hm.pin_indices.length - (ungroupedIdxs hm).length)
                hungarian_fail)) := by
  intro fuel
  induction fuel with
  | zero =>
    intro i hf hi
    have hieq : i = hm.end_slot + 1 := by omega
    subst hieq
    have hnil : unblockedIn hm.slots (hm.end_slot + 1) hm.end_slot = [] := by
      rw [unblockedIn, rangeIdxs]
      have : hm.end_slot + 1 - (hm.end_slot + 1) = 0 := by omega
      rw [this]
      rfl
    refine ⟨[], rfl, by rw [hnil]; rfl, ?_⟩
    intro t si hsi
    rw [hnil] at hsi
    simp at hsi
  | succ fuel ih =>
    intro i hf hi
    have hile : i ≤ hm.end_slot := by omega
    have hilen : i < hm.slots.length := by omega
    have hslot : hm.slots[i]? = some hm.slots[i] := List.getElem?_eq_getElem hilen
    obtain ⟨m0, hm0, hlen0, hchar0⟩ := ih (i + 1) (by omega) (by omega)
    by_cases hb : hm.slots[i].blocked = true
    · have hfil : unblockedIn hm.slots i hm.end_slot
          = unblockedIn hm.slots (i + 1) hm.end_slot := by
        rw [unblockedIn, rangeIdxs_cons i hm.end_slot hile, List.filter_cons]
        have : ¬ (blockedAt hm.slots i = some false) := by
          simp [blockedAt, hslot, hb]
        simp only [this, decide_False, Bool.false_eq_true, if_neg, not_false_iff]
        rfl
      refine ⟨m0, ?_, by rw [hfil]; exact hlen0, ?_⟩
      · simp only [createMatrixGo, hslot, hb, if_pos]
        exact hm0
      · rw [hfil]; exact hchar0
    · rw [Bool.not_eq_true] at hb
      have hfil : unblockedIn hm.slots i hm.end_slot
          = i :: unblockedIn hm.slots (i + 1) hm.end_slot := by
        rw [unblockedIn, rangeIdxs_cons i hm.end_slot hile, List.filter_cons]
        have : blockedAt hm.slots i = some false := by
          simp [blockedAt, hslot, hb]
        simp only [this, decide_True, if_pos]
        rfl
      have hrow := matrixRow_eq hm hm.slots[i].pos hbp
      refine ⟨((ungroupedIdxs hm).map (fun idx => hm.hpwl idx hm.slots[i].pos) ++
          List.replicate (hm.pin_indices.length - (ungroupedIdxs hm).length) hungarian_fail)
          :: m0, ?_, ?_, ?_⟩
      · simp only [createMatrixGo, hslot, hb, Bool.false_eq_true, if_neg, not_false_iff,
          hrow, hm0]
      · rw [hfil]
        simp [hlen0]
      · intro t si hsi
        rw [hfil] at hsi
        cases t with
        | zero =>
          simp only [List.getElem?_cons_zero, Option.some.injEq] at hsi
          subst hsi
          exact ⟨hm.slots[i], List.getElem?_eq_getElem (by omega), hb, by simp⟩
        | succ t =>
          simp only [List.getElem?_cons_succ] at hsi
          obtain ⟨slot, h1, h2, h3⟩ := hchar0 t si hsi
          exact ⟨slot, h1, h2, by simpa using h3⟩

theorem unblockedIn_pairwise (slots : List Slot) (b e : Nat) :
    (unblockedIn slots b e).Pairwise (· < ·) := by
  apply List.Pairwise.filter
  rw [rangeIdxs]
  apply List.Pairwise.map
  · exact fun x y h => Nat.add_lt_add_left h b
  · exact List.pairwise_lt_range _

/-- C2 as stated is false: `createMatrix` gives every row one cell per pin of
the section's pin list, so when the list holds a grouped pin the row has more
cells than there are ungrouped pins.  In `hmX2` (one unblocked slot, one
grouped and one ungrouped pin) the single row has two cells but only one
ungrouped pin exists. -/
theorem claim_C2_counterexample :
    createMatrix hmX2 = some [[0, hungarian_fail]] ∧
    (ungroupedIdxs hmX2).length = 1 ∧
    (∀ row ∈ [[(0 : Int), hungarian_fail]], row.length = 2) ∧ (2 : Nat) ≠ 1 := by
  refine ⟨by decide, by decide, ?_, by decide⟩
  intro row hrow
  simp only [List.mem_singleton] at hrow
  subst hrow
  decide

/-- C2 amended: `createMatrix` builds one row per unblocked slot of the
section in ascending slot order (a blocked slot contributes no row); each row
has one cell per pin of the section's pin list, where the leading cells are
the cost oracle's values for the ungrouped pins in input order at the row's
slot position, and the cells beyond the ungrouped count keep the `INFEASIBLE`
sentinel (so when every listed pin is ungrouped there is exactly one column
per ungrouped pin, as the spec says). -/
theorem claim_C2_amended (hm : HM)
    (hend : hm.end_slot < hm.slots.length)
    (hbe : hm.begin_slot ≤ hm.end_slot + 1)
    (hbp : ∀ idx ∈ hm.pin_indices, idx < hm.pins.length)
    (hcount : (unblockedIn hm.slots hm.begin_slot hm.end_slot).length
      = hm.non_blocked_slots) :
    ∃ m, createMatrix hm = some m ∧
      m.length = (unblockedIn hm.slots hm.begin_slot hm.end_slot).length ∧
      (unblockedIn hm.slots hm.begin_slot hm.end_slot).Pairwise (· < ·) ∧
      (∀ (t si : Nat), (unblockedIn hm.slots hm.begin_slot hm.end_slot)[t]? = some si →
        ∃ slot : Slot, hm.slots[si]? = some slot ∧ slot.blocked = false ∧
          m[t]? = some ((ungroupedIdxs hm).map (fun idx => hm.hpwl idx slot.pos) ++
            List.replicate (hm.pin_indices.length - (ungroupedIdxs hm).length)
              hungarian_fail)) := by
  obtain ⟨m, hmgo, hlen, hchar⟩ := createMatrixGo_eq hm hbp hend
    (hm.end_slot + 1 - hm.begin_slot) hm.begin_slot rfl (by omega)
  refine ⟨m, ?_, hlen, unblockedIn_pairwise hm.slots hm.begin_slot hm.end_slot, hchar⟩
  simp only [createMatrix, hmgo]
  have hle : m.length ≤ hm.non_blocked_slots := by omega
  rw [if_pos hle]
  have : hm.non_blocked_slots - m.length = 0 := by omega
  rw [this]
  simp

theorem claim_C2_amended_witness :
    ∃ m, createMatrix hmX2 = some m ∧
      m.length = (unblockedIn hmX2.slots hmX2.begin_slot hmX2.end_slot).length ∧
      (unblockedIn hmX2.slots hmX2.begin_slot hmX2.end_slot).Pairwise (· < ·) ∧
      (∀ (t si : Nat), (unblockedIn hmX2.slots hmX2.begin_slot hmX2.end_slot)[t]? = some si →
        ∃ slot : Slot, hmX2.slots[si]? = some slot ∧ slot.blocked = false ∧
          m[t]? = some ((ungroupedIdxs hmX2).map (fun idx => hmX2.hpwl idx slot.pos) ++
            List.replicate (hmX2.pin_indices.length - (ungroupedIdxs hmX2).length)
              hungarian_fail)) :=
  claim_C2_amended hmX2 (by decide) (by decide) (by decide) (by decide)

/- ### Bounds behavior of the skip loops (claim C10) -/

theorem skipStrideF_some (slots : List Slot) (gs : Int) :
    ∀ (fuel : Nat) (i j : Int), skipStrideF slots gs i fuel = some j →
      0 ≤ j ∧ j.toNat < slots.length ∧ blockedAt slots j.toNat = some false := by
  intro fuel
  induction fuel with
  | zero => intro i j h; simp [skipStrideF] at h
  | succ fuel ih =>
    intro i j h
    rw [skipStrideF] at h
    by_cases hneg : i < 0
    · rw [if_pos hneg] at h; exact absurd h (by simp)
    · rw [if_neg hneg] at h
      cases hs : slots[i.toNat]? with
      | none => simp only [hs] at h; exact absurd h (by simp)
      | some s =>
        simp only [hs] at h
        by_cases hb : s.blocked
        · rw [if_pos hb] at h
          by_cases hgs : 0 < gs
          · rw [if_pos hgs] at h
            exact ih (i + gs) j h
          · rw [if_neg hgs] at h; exact absurd h (by simp)
        · rw [if_neg hb] at h
          simp only [Option.some.injEq] at h
          subst h
          rw [Bool.not_eq_true] at hb
          refine ⟨by omega, (List.getElem?_eq_some_iff.mp hs).1, ?_⟩
          simp [blockedAt, hs, hb]

theorem skipStrideF_none_of_allBlocked (slots : List Slot) (gs : Int) (hgs : 0 < gs) :
    ∀ (fuel : Nat) (i : Int), 0 ≤ i →
      (∀ m : Nat, i.toNat ≤ m → m < slots.length → blockedAt slots m = some true) →
      skipStrideF slots gs i fuel = none := by
  intro fuel
  induction fuel with
  | zero => intro i _ _; rfl
  | succ fuel ih =>
    intro i hpos hall
    rw [skipStrideF]
    rw [if_neg (by omega)]
    cases hs : slots[i.toNat]? with
    | none => simp only [hs]
    | some s =>
      simp only [hs]
      have hb : s.blocked = true := by
        have := hall i.toNat (le_refl _) (List.getElem?_eq_some_iff.mp hs).1
        simpa [blockedAt, hs] using this
      rw [if_pos hb, if_pos hgs]
      apply ih (i + gs) (by omega)
      intro m h1 h2
      apply hall m ?_ h2
      omega

/-- C10: both blocked-slot skip loops evaluate `slots_[slot_index]` before the
bounds test `slot_index < slots_.size()`.  When an unblocked slot exists at or
after the scan position (within the vector, on a stride point for the grouped
loop), the scan stops at an unblocked in-bounds index and every access it made
was in bounds (a `some` result of the model certifies this).  When every slot
from the scan position to the end of the vector is blocked, the scan reads
past the end of the vector, modelled as `none`. -/
theorem claim_C10 :
    (∀ (slots : List Slot) (i m : Nat), i ≤ m → m < slots.length →
      blockedAt slots m = some false →
      ∃ j, skipBlocked slots i = some j ∧ j < slots.length ∧
        blockedAt slots j = some false) ∧
    (∀ (slots : List Slot) (i : Nat),
      (∀ m, i ≤ m → m < slots.length → blockedAt slots m = some true) →
      skipBlocked slots i = none) ∧
    (∀ (slots : List Slot) (gs i j : Int), skipStride slots gs i = some j →
      0 ≤ j ∧ j.toNat < slots.length ∧ blockedAt slots j.toNat = some false) ∧
    (∀ (slots : List Slot) (gs i : Int), 0 < gs → 0 ≤ i →
      (∀ m : Nat, i.toNat ≤ m → m < slots.length → blockedAt slots m = some true) →
      skipStride slots gs i = none) := by
  refine ⟨?_, ?_, ?_, ?_⟩
  · intro slots i m h1 h2 h3
    obtain ⟨j, hj⟩ := skipBlocked_isSome_of_unblocked slots i m h1 h2 h3
    obtain ⟨_, hlen, hbl, _⟩ := skipBlocked_some slots i j hj
    exact ⟨j, hj, hlen, hbl⟩
  · intro slots i h
    exact (skipBlocked_none_iff slots i).mpr h
  · intro slots gs i j h
    exact skipStrideF_some slots gs _ i j h
  · intro slots gs i hgs hpos hall
    exact skipStrideF_none_of_allBlocked slots gs hgs _ i hpos hall

theorem claim_C10_witness :
    (∃ j, skipBlocked [{ wslot 0 with blocked := true }, wslot 10] 0 = some j ∧
      j < 2 ∧ blockedAt [{ wslot 0 with blocked := true }, wslot 10] j = some false) ∧
    skipBlocked [{ wslot 0 with blocked := true }] 0 = none ∧
    (0 ≤ (2 : Int) ∧ (2 : Int).toNat < 3 ∧
      blockedAt [{ wslot 0 with blocked := true }, { wslot 5 with blocked := true },
        wslot 10] (2 : Int).toNat = some false) ∧
    skipStride [{ wslot 0 with blocked := true }, { wslot 5 with blocked := true }] 2 0
      = none := by
  refine ⟨?_, ?_, ?_, ?_⟩
  · exact claim_C10.1 [{ wslot 0 with blocked := true }, wslot 10] 0 1 (by decide)
      (by decide) (by decide)
  · exact claim_C10.2.1 [{ wslot 0 with blocked := true }] 0 (by decide)
  · exact claim_C10.2.2.1 [{ wslot 0 with blocked := true }, { wslot 5 with blocked := true },
      wslot 10] 2 0 2 (by decide)
  · exact claim_C10.2.2.2 [{ wslot 0 with blocked := true }, { wslot 5 with blocked := true }]
      2 0 (by decide) (by decide) (by decide)

/- ### The grouped matrix builder (claims C6 and C7) -/

theorem computeGroupSize_le (groups : List (List Nat × Bool)) :
    ∀ (acc : Int), (∀ g ∈ groups, (g.1.length : Int) ≤ groups.foldl
      (fun a g => max (g.1.length : Int) a) acc) ∧
      acc ≤ groups.foldl (fun a g => max (g.1.length : Int) a) acc := by
  induction groups with
  | nil => intro acc; exact ⟨by simp, le_refl _⟩
  | cons g rest ih =>
    intro acc
    obtain ⟨h1, h2⟩ := ih (max (g.1.length : Int) acc)
    constructor
    · intro g2 hg2
      rcases List.mem_cons.mp hg2 with rfl | hmem
      · calc (g2.1.length : Int) ≤ max (g2.1.length : Int) acc := le_max_left _ _
          _ ≤ _ := h2
      · exact h1 g2 hmem
    · calc acc ≤ max (g.1.length : Int) acc := le_max_right _ _
        _ ≤ _ := h2

theorem computeGroupSize_mem (groups : List (List Nat × Bool)) :
    ∀ (acc : Int), groups.foldl (fun a g => max (g.1.length : Int) a) acc = acc ∨
      ∃ g ∈ groups, groups.foldl (fun a g => max (g.1.length : Int) a) acc
        = (g.1.length : Int) := by
  induction groups with
  | nil => intro acc; exact Or.inl rfl
  | cons g rest ih =>
    intro acc
    rcases ih (max (g.1.length : Int) acc) with h | ⟨g2, hg2, he⟩
    · simp only [List.foldl_cons] at *
      rw [h]
      rcases max_choice (g.1.length : Int) acc with hmc | hmc
      · exact Or.inr ⟨g, by simp, hmc⟩
      · exact Or.inl hmc
    · exact Or.inr ⟨g2, by simp [hg2], by simpa using he⟩

theorem blockStartsF_congr (endS gs : Int) (hgs : 0 < gs) :
    ∀ (fuel fuel' : Nat) (i : Int), (endS + 1 - i).toNat + 1 ≤ fuel →
      (endS + 1 - i).toNat + 1 ≤ fuel' →
      blockStartsF endS gs i fuel = blockStartsF endS gs i fuel' := by
  intro fuel
  induction fuel with
  | zero => intro fuel' i hf _; omega
  | succ fuel ih =>
    intro fuel' i hf hf'
    cases fuel' with
    | zero => omega
    | succ fuel' =>
      rw [blockStartsF, blockStartsF]
      by_cases hc : 0 < gs ∧ i ≤ endS - gs + 1
      · rw [if_pos hc, if_pos hc]
        have hb : (endS + 1 - (i + gs)).toNat + 1 ≤ fuel := by omega
        have hb' : (endS + 1 - (i + gs)).toNat + 1 ≤ fuel' := by omega
        rw [ih fuel' (i + gs) hb hb']
      · rw [if_neg hc, if_neg hc]

theorem blockStarts_eq (endS gs : Int) (hgs : 0 < gs) (i : Int) :
    blockStarts endS gs i =
      if i ≤ endS - gs + 1 then i :: blockStarts endS gs (i + gs) else [] := by
  rw [blockStarts, blockStartsF]
  by_cases hc : i ≤ endS - gs + 1
  · rw [if_pos ⟨hgs, hc⟩, if_pos hc]
    rw [blockStarts]
    refine congrArg _ ?_
    apply blockStartsF_congr endS gs hgs
    · omega
    · omega
  · rw [if_neg (fun h => hc h.2), if_neg hc]

theorem blockStarts_mem (endS gs : Int) (hgs : 0 < gs) :
    ∀ (n : Nat) (i : Int), (endS + 1 - i).toNat ≤ n →
      ∀ s ∈ blockStarts endS gs i,
        (∃ t : Nat, s = i + t * gs) ∧ s ≤ endS - gs + 1 ∧ i ≤ s := by
  intro n
  induction n with
  | zero =>
    intro i hn s hs
    rw [blockStarts_eq endS gs hgs] at hs
    rw [if_neg (by omega)] at hs
    simp at hs
  | succ n ih =>
    intro i hn s hs
    rw [blockStarts_eq endS gs hgs] at hs
    by_cases hc : i ≤ endS - gs + 1
    · rw [if_pos hc] at hs
      rcases List.mem_cons.mp hs with rfl | hmem
      · exact ⟨⟨0, by omega⟩, hc, le_refl _⟩
      · obtain ⟨⟨t, ht⟩, h2, h3⟩ := ih (i + gs) (by omega) s hmem
        exact ⟨⟨t + 1, by push_cast; linarith⟩, h2, by omega⟩
    · rw [if_neg hc] at hs
      simp at hs

theorem blockStarts_complete (endS gs : Int) (hgs : 0 < gs) :
    ∀ (t : Nat) (i : Int), i + t * gs ≤ endS - gs + 1 →
      (i + t * gs) ∈ blockStarts endS gs i := by
  intro t
  induction t with
  | zero =>
    intro i hle
    rw [blockStarts_eq endS gs hgs]
    rw [if_pos (by omega)]
    simp
  | succ t ih =>
    intro i hle
    have hle2 : i ≤ endS - gs + 1 := by nlinarith [Int.natCast_nonneg t]
    rw [blockStarts_eq endS gs hgs, if_pos hle2]
    have : i + (t + 1 : Nat) * gs = (i + gs) + t * gs := by push_cast; ring
    rw [this] at hle ⊢
    exact List.mem_cons_of_mem _ (ih (i + gs) hle)

theorem blockStarts_pairwise (endS gs : Int) (hgs : 0 < gs) :
    ∀ (n : Nat) (i : Int), (endS + 1 - i).toNat ≤ n →
      (blockStarts endS gs i).Pairwise (· < ·) := by
  intro n
  induction n with
  | zero =>
    intro i hn
    rw [blockStarts_eq endS gs hgs, if_neg (by omega)]
    exact List.Pairwise.nil
  | succ n ih =>
    intro i hn
    rw [blockStarts_eq endS gs hgs]
    by_cases hc : i ≤ endS - gs + 1
    · rw [if_pos hc]
      refine List.pairwise_cons.mpr ⟨?_, ih (i + gs) (by omega)⟩
      intro s hs
      have := (blockStarts_mem endS gs hgs ((endS + 1 - (i + gs)).toNat) (i + gs)
        (le_refl _) s hs).2.2
      omega
    · rw [if_neg hc]
      exact List.Pairwise.nil

theorem blockBlocked_false_iff (slots : List Slot) :
    ∀ (g : Nat) (i : Int), 0 ≤ i →
      (blockBlocked slots i g = some false ↔ freeBlock slots i g) := by
  intro g
  induction g with
  | zero =>
    intro i _
    constructor
    · intro _ k hk; omega
    · intro _; rfl
  | succ g ih =>
    intro i hpos
    rw [blockBlocked, if_neg (by omega)]
    constructor
    · intro h
      cases hs : slots[i.toNat]? with
      | none => rw [hs] at h; exact absurd h (by simp)
      | some s =>
        rw [hs] at h
        cases hr : blockBlocked slots (i + 1) g with
        | none => rw [hr] at h; exact absurd h (by simp)
        | some b =>
          rw [hr] at h
          simp only [Option.some.injEq, Bool.or_eq_false_iff] at h
          obtain ⟨hsb, hb⟩ := h
          subst hb
          have hfree := (ih (i + 1) (by omega)).mp hr
          intro k hk
          cases k with
          | zero => exact ⟨s, by simpa using hs, hsb⟩
          | succ k =>
            obtain ⟨sl, hsl, hslb⟩ := hfree k (by omega)
            refine ⟨sl, ?_, hslb⟩
            rw [show i.toNat + (k + 1) = (i + 1).toNat + k by omega]
            exact hsl
    · intro hfree
      obtain ⟨s, hs, hsb⟩ := hfree 0 (by omega)
      rw [Nat.add_zero] at hs
      have hr : blockBlocked slots (i + 1) g = some false := by
        apply (ih (i + 1) (by omega)).mpr
        intro k hk
        obtain ⟨sl, hsl, hslb⟩ := hfree (k + 1) (by omega)
        refine ⟨sl, ?_, hslb⟩
        rw [show (i + 1).toNat + k = i.toNat + (k + 1) by omega]
        exact hsl
      simp [hs, hr, hsb]

theorem blockBlocked_isSome (slots : List Slot) :
    ∀ (g : Nat) (i : Int), 0 ≤ i → (∀ k, k < g → i.toNat + k < slots.length) →
      ∃ b, blockBlocked slots i g = some b := by
  intro g
  induction g with
  | zero => intro i _ _; exact ⟨false, rfl⟩
  | succ g ih =>
    intro i hpos hbound
    rw [blockBlocked, if_neg (by omega)]
    have hlt : i.toNat < slots.length := by have := hbound 0 (by omega); omega
    obtain ⟨s, hs⟩ : ∃ s, slots[i.toNat]? = some s := ⟨_, List.getElem?_eq_getElem hlt⟩
    obtain ⟨b, hb⟩ := ih (i + 1) (by omega)
      (fun k hk => by
        have := hbound (k + 1) (by omega)
        omega)
    simp only [hs, hb]
    exact ⟨_, rfl⟩

theorem groupMatrixRow_eq (hm : HM) (p : Point)
    (hnum : hm.pin_groups.length ≤ hm.num_pin_groups) :
    groupMatrixRow hm p =
      some (hm.pin_groups.map (fun g => groupCost hm.hpwl p g.1) ++
        List.replicate (hm.num_pin_groups - hm.pin_groups.length) hungarian_fail) := by
  rw [groupMatrixRow]
  simp only [List.length_map]
  rw [if_pos hnum]

theorem groupRowsGo_eq (hm : HM) (gs : Int) (hgs : 0 < gs)
    (hnum : hm.pin_groups.length ≤ hm.num_pin_groups) :
    ∀ starts : List Int,
      (∀ s ∈ starts, 0 ≤ s ∧ ∀ k, k < gs.toNat → s.toNat + k < hm.slots.length) →
      ∃ m, groupRowsGo hm gs starts = some m ∧
        m.length = (starts.filter
          (fun s => decide (blockBlocked hm.slots s gs.toNat = some false))).length ∧
        ∀ (t : Nat) (s0 : Int),
          (starts.filter
            (fun s => decide (blockBlocked hm.slots s gs.toNat = some false)))[t]?
            = some s0 →
          ∃ slot0 : Slot, hm.slots[s0.toNat]? = some slot0 ∧
            m[t]? = some (hm.pin_groups.map (fun g => groupCost hm.hpwl slot0.pos g.1) ++
              List.replicate (hm.num_pin_groups - hm.pin_groups.length) hungarian_fail) := by
  intro starts
  induction starts with
  | nil =>
    intro _
    refine ⟨[], rfl, rfl, ?_⟩
    intro t s0 h
    simp at h
  | cons s rest ih =>
    intro hb
    obtain ⟨hpos, hbound⟩ := hb s (by simp)
    obtain ⟨m0, hm0, hlen0, hchar0⟩ := ih (fun s2 hs2 => hb s2 (by simp [hs2]))
    have hlt : s.toNat < hm.slots.length := by
      have := hbound 0 (by omega)
      omega
    obtain ⟨slot0, hslot⟩ : ∃ s0, hm.slots[s.toNat]? = some s0 :=
      ⟨_, List.getElem?_eq_getElem hlt⟩
    obtain ⟨b, hbb⟩ := blockBlocked_isSome hm.slots gs.toNat s hpos hbound
    cases b with
    | true =>
      have hfil : (s :: rest).filter
          (fun s => decide (blockBlocked hm.slots s gs.toNat = some false)) =
          rest.filter (fun s => decide (blockBlocked hm.slots s gs.toNat = some false)) := by
        rw [List.filter_cons]
        simp [hbb]
      refine ⟨m0, ?_, by rw [hfil]; exact hlen0, by rw [hfil]; exact hchar0⟩
      simp only [groupRowsGo, if_neg (by omega : ¬ s < 0), hslot, hbb]
      exact hm0
    | false =>
      have hfil : (s :: rest).filter
          (fun s => decide (blockBlocked hm.slots s gs.toNat = some false)) =
          s :: rest.filter (fun s => decide (blockBlocked hm.slots s gs.toNat = some false)) := by
        rw [List.filter_cons]
        simp [hbb]
      have hrow := groupMatrixRow_eq hm slot0.pos hnum
      refine ⟨(hm.pin_groups.map (fun g => groupCost hm.hpwl slot0.pos g.1) ++
        List.replicate (hm.num_pin_groups - hm.pin_groups.length) hungarian_fail) :: m0,
        ?_, ?_, ?_⟩
      · simp only [groupRowsGo, if_neg (by omega : ¬ s < 0), hslot, hbb, hrow, hm0]
      · rw [hfil]
        simp [hlen0]
      · intro t s0 hs0
        rw [hfil] at hs0
        cases t with
        | zero =>
          simp only [List.getElem?_cons_zero, Option.some.injEq] at hs0
          subst hs0
          exact ⟨slot0, hslot, by simp⟩
        | succ t =>
          simp only [List.getElem?_cons_succ] at hs0
          obtain ⟨slot0, h1, h2⟩ := hchar0 t s0 hs0
          exact ⟨slot0, h1, by simpa using h2⟩

theorem groupCostAux_sum (hpwl : Nat → Point → Int) (p : Point) :
    ∀ (members : List Nat) (acc : Int),
      (∀ mem ∈ members, hpwl mem p ≠ hungarian_fail) →
      groupCostAux hpwl p acc members = acc + (members.map (fun mem => hpwl mem p)).sum := by
  intro members
  induction members with
  | nil => intro acc _; simp [groupCostAux]
  | cons mem rest ih =>
    intro acc hok
    have hm1 : hpwl mem p ≠ hungarian_fail := hok mem (by simp)
    rw [groupCostAux]
    simp only [hm1, ite_false]
    rw [ih (acc + hpwl mem p) (fun x hx => hok x (by simp [hx]))]
    simp [List.sum_cons]
    ring

theorem groupCostAux_fail (hpwl : Nat → Point → Int) (p : Point) :
    ∀ (preM : List Nat) (acc : Int) (mFail : Nat) (postM : List Nat),
      (∀ x ∈ preM, hpwl x p ≠ hungarian_fail) →
      hpwl mFail p = hungarian_fail →
      groupCostAux hpwl p acc (preM ++ mFail :: postM) = hungarian_fail := by
  intro preM
  induction preM with
  | nil =>
    intro acc mFail postM _ hfail
    rw [List.nil_append, groupCostAux]
    simp [hfail]
  | cons x rest ih =>
    intro acc mFail postM hok hfail
    have hx : hpwl x p ≠ hungarian_fail := hok x (by simp)
    rw [List.cons_append, groupCostAux]
    simp only [hx, ite_false]
    exact ih (acc + hpwl x p) mFail postM (fun y hy => hok y (by simp [hy])) hfail

/-- C6: with at least one pin group, `createMatrixForGroups` computes a single
block size equal to the maximum pin count over the section's groups,
enumerates candidate blocks only at starts `begin_slot + t * group_size`
within the section (start at most `end_slot - group_size + 1`), builds one
matrix row per candidate block whose slots are all unblocked, in ascending
start order, and builds no row for a block containing a blocked slot
(membership in `freeStarts` is exactly block-freeness, and it is complete
over the enumerated starts). -/
theorem groupMatrix_spec (hm : HM)
    (hne : hm.pin_groups ≠ [])
    (hpos : 0 < computeGroupSize hm.pin_groups)
    (hend : hm.end_slot < hm.slots.length)
    (hnum : hm.pin_groups.length ≤ hm.num_pin_groups) :
    ∃ m gsl gs, createMatrixForGroups hm = some (m, gsl, gs) ∧
      gs = computeGroupSize hm.pin_groups ∧
      (∀ g ∈ hm.pin_groups, (g.1.length : Int) ≤ gs) ∧
      (∃ g ∈ hm.pin_groups, (g.1.length : Int) = gs) ∧
      gsl = m.length ∧
      m.length = (freeStarts hm gs).length ∧
      (freeStarts hm gs).Pairwise (· < ·) ∧
      (∀ s ∈ freeStarts hm gs, (∃ t : Nat, s = (hm.begin_slot : Int) + t * gs) ∧
        s ≤ (hm.end_slot : Int) - gs + 1 ∧ freeBlock hm.slots s gs.toNat) ∧
      (∀ t : Nat, (hm.begin_slot : Int) + t * gs ≤ (hm.end_slot : Int) - gs + 1 →
        freeBlock hm.slots ((hm.begin_slot : Int) + t * gs) gs.toNat →
        ((hm.begin_slot : Int) + t * gs) ∈ freeStarts hm gs) ∧
      (∀ (t : Nat) (s0 : Int), (freeStarts hm gs)[t]? = some s0 →
        ∃ slot0 : Slot, hm.slots[s0.toNat]? = some slot0 ∧
          m[t]? = some (hm.pin_groups.map (fun g => groupCost hm.hpwl slot0.pos g.1) ++
            List.replicate (hm.num_pin_groups - hm.pin_groups.length) hungarian_fail)) := by
  set gs := computeGroupSize hm.pin_groups with hgsdef
  have hstartsOk : ∀ s ∈ blockStarts (hm.end_slot : Int) gs (hm.begin_slot : Int),
      0 ≤ s ∧ ∀ k, k < gs.toNat → s.toNat + k < hm.slots.length := by
    intro s hs
    obtain ⟨⟨t, ht⟩, hle, hge⟩ := blockStarts_mem (hm.end_slot : Int) gs hpos
      (((hm.end_slot : Int) + 1 - (hm.begin_slot : Int)).toNat) (hm.begin_slot : Int)
      (le_refl _) s hs
    have hs0 : 0 ≤ s := by omega
    refine ⟨hs0, ?_⟩
    intro k hk
    omega
  obtain ⟨m, hmgo, hlen, hchar⟩ := groupRowsGo_eq hm gs hpos hnum
    (blockStarts (hm.end_slot : Int) gs (hm.begin_slot : Int)) hstartsOk
  have hcm : createMatrixForGroups hm = some (m, m.length, gs) := by
    rw [createMatrixForGroups, ← hgsdef, if_pos hpos, hmgo]
  have hfs : freeStarts hm gs = (blockStarts (hm.end_slot : Int) gs
      (hm.begin_slot : Int)).filter
      (fun s => decide (blockBlocked hm.slots s gs.toNat = some false)) := rfl
  refine ⟨m, m.length, gs, hcm, rfl, (computeGroupSize_le hm.pin_groups (-1)).1, ?_,
    rfl, by rw [hfs]; exact hlen, ?_, ?_, ?_, by rw [hfs]; exact hchar⟩
  · rcases computeGroupSize_mem hm.pin_groups (-1) with h | h
    · rw [hgsdef] at hpos
      rw [computeGroupSize] at hpos
      rw [h] at hpos
      omega
    · obtain ⟨g, hg, he⟩ := h
      refine ⟨g, hg, ?_⟩
      rw [hgsdef, computeGroupSize]
      exact he.symm
  · rw [hfs]
    apply List.Pairwise.filter
    exact blockStarts_pairwise (hm.end_slot : Int) gs hpos _ _ (le_refl _)
  · intro s hs
    rw [hfs] at hs
    have hmem := List.mem_of_mem_filter hs
    have hflt := List.of_mem_filter hs
    simp only [decide_eq_true_eq] at hflt
    obtain ⟨⟨t, ht⟩, hle, hge⟩ := blockStarts_mem (hm.end_slot : Int) gs hpos
      (((hm.end_slot : Int) + 1 - (hm.begin_slot : Int)).toNat) (hm.begin_slot : Int)
      (le_refl _) s hmem
    refine ⟨⟨t, ht⟩, hle, ?_⟩
    exact (blockBlocked_false_iff hm.slots gs.toNat s (by omega)).mp hflt
  · intro t hle hfree
    rw [hfs]
    apply List.mem_filter.mpr
    refine ⟨blockStarts_complete (hm.end_slot : Int) gs hpos t (hm.begin_slot : Int) hle, ?_⟩
    simp only [decide_eq_true_eq]
    refine (blockBlocked_false_iff hm.slots gs.toNat _ ?_).mpr hfree
    have : (0 : Int) ≤ (t : Int) * gs := by positivity
    omega

/-- C7: every cell of the grouped cost matrix in a pin-group column equals
`groupCost` of the group's members at the row's anchor position; when every
member's cost is finite the cell is the exact sum of the members' costs, and
when some member's cost is the sentinel (all earlier members finite) the cell
is the sentinel, independently of the members after it — the accumulation
stops at the first sentinel and never does arithmetic on it. -/
theorem claim_C7 (hm : HM)
    (hne : hm.pin_groups ≠ [])
    (hpos : 0 < computeGroupSize hm.pin_groups)
    (hend : hm.end_slot < hm.slots.length)
    (hnum : hm.pin_groups.length ≤ hm.num_pin_groups) :
    ∃ m gsl gs, createMatrixForGroups hm = some (m, gsl, gs) ∧
      ∀ (t : Nat) (s0 : Int), (freeStarts hm gs)[t]? = some s0 →
        ∃ (slot0 : Slot) (row : List Int), hm.slots[s0.toNat]? = some slot0 ∧
          m[t]? = some row ∧
          ∀ (jcol : Nat) (g : List Nat × Bool), hm.pin_groups[jcol]? = some g →
            row[jcol]? = some (groupCost hm.hpwl slot0.pos g.1) ∧
            ((∀ mem ∈ g.1, hm.hpwl mem slot0.pos ≠ hungarian_fail) →
              groupCost hm.hpwl slot0.pos g.1
                = (g.1.map (fun mem => hm.hpwl mem slot0.pos)).sum) ∧
            (∀ (preM : List Nat) (mFail : Nat) (postM : List Nat),
              g.1 = preM ++ mFail :: postM →
              (∀ x ∈ preM, hm.hpwl x slot0.pos ≠ hungarian_fail) →
              hm.hpwl mFail slot0.pos = hungarian_fail →
              groupCost hm.hpwl slot0.pos g.1 = hungarian_fail) := by
  obtain ⟨m, gsl, gs, hcm, hgs, _, _, _, _, _, _, _, hchar⟩ :=
    groupMatrix_spec hm hne hpos hend hnum
  refine ⟨m, gsl, gs, hcm, ?_⟩
  intro t s0 hs0
  obtain ⟨slot0, hslot0, hrow⟩ := hchar t s0 hs0
  refine ⟨slot0, _, hslot0, hrow, ?_⟩
  intro jcol g hg
  have hjlen : jcol < hm.pin_groups.length := (List.getElem?_eq_some_iff.mp hg).1
  refine ⟨?_, ?_, ?_⟩
  · rw [List.getElem?_append]
    rw [if_pos (by simpa using hjlen)]
    rw [List.getElem?_map, hg]
    rfl
  · intro hok
    rw [groupCost, groupCostAux_sum hm.hpwl slot0.pos g.1 0 hok]
    ring
  · intro preM mFail postM hsplit hok hfail
    rw [groupCost, hsplit]
    exact groupCostAux_fail hm.hpwl slot0.pos preM 0 mFail postM hok hfail

/-- C6: restatement of `groupMatrix_spec` as the claim's theorem. -/
theorem claim_C6 (hm : HM)
    (hne : hm.pin_groups ≠ [])
    (hpos : 0 < computeGroupSize hm.pin_groups)
    (hend : hm.end_slot < hm.slots.length)
    (hnum : hm.pin_groups.length ≤ hm.num_pin_groups) :
    ∃ m gsl gs, createMatrixForGroups hm = some (m, gsl, gs) ∧
      gs = computeGroupSize hm.pin_groups ∧
      (∀ g ∈ hm.pin_groups, (g.1.length : Int) ≤ gs) ∧
      (∃ g ∈ hm.pin_groups, (g.1.length : Int) = gs) ∧
      gsl = m.length ∧
      m.length = (freeStarts hm gs).length ∧
      (freeStarts hm gs).Pairwise (· < ·) ∧
      (∀ s ∈ freeStarts hm gs, (∃ t : Nat, s = (hm.begin_slot : Int) + t * gs) ∧
        s ≤ (hm.end_slot : Int) - gs + 1 ∧ freeBlock hm.slots s gs.toNat) ∧
      (∀ t : Nat, (hm.begin_slot : Int) + t * gs ≤ (hm.end_slot : Int) - gs + 1 →
        freeBlock hm.slots ((hm.begin_slot : Int) + t * gs) gs.toNat →
        ((hm.begin_slot : Int) + t * gs) ∈ freeStarts hm gs) ∧
      (∀ (t : Nat) (s0 : Int), (freeStarts hm gs)[t]? = some s0 →
        ∃ slot0 : Slot, hm.slots[s0.toNat]? = some slot0 ∧
          m[t]? = some (hm.pin_groups.map (fun g => groupCost hm.hpwl slot0.pos g.1) ++
            List.replicate (hm.num_pin_groups - hm.pin_groups.length) hungarian_fail)) :=
  groupMatrix_spec hm hne hpos hend hnum

theorem claim_C6_witness :
    ∃ m gsl gs, createMatrixForGroups hmGW = some (m, gsl, gs) ∧
      gs = computeGroupSize hmGW.pin_groups ∧
      (∀ g ∈ hmGW.pin_groups, (g.1.length : Int) ≤ gs) ∧
      (∃ g ∈ hmGW.pin_groups, (g.1.length : Int) = gs) ∧
      gsl = m.length ∧
      m.length = (freeStarts hmGW gs).length ∧
      (freeStarts hmGW gs).Pairwise (· < ·) ∧
      (∀ s ∈ freeStarts hmGW gs, (∃ t : Nat, s = (hmGW.begin_slot : Int) + t * gs) ∧
        s ≤ (hmGW.end_slot : Int) - gs + 1 ∧ freeBlock hmGW.slots s gs.toNat) ∧
      (∀ t : Nat, (hmGW.begin_slot : Int) + t * gs ≤ (hmGW.end_slot : Int) - gs + 1 →
        freeBlock hmGW.slots ((hmGW.begin_slot : Int) + t * gs) gs.toNat →
        ((hmGW.begin_slot : Int) + t * gs) ∈ freeStarts hmGW gs) ∧
      (∀ (t : Nat) (s0 : Int), (freeStarts hmGW gs)[t]? = some s0 →
        ∃ slot0 : Slot, hmGW.slots[s0.toNat]? = some slot0 ∧
          m[t]? = some (hmGW.pin_groups.map (fun g => groupCost hmGW.hpwl slot0.pos g.1) ++
            List.replicate (hmGW.num_pin_groups - hmGW.pin_groups.length) hungarian_fail)) :=
  claim_C6 hmGW (by decide) (by decide) (by decide) (by decide)

theorem claim_C7_witness :
    ∃ m gsl gs, createMatrixForGroups hmGW = some (m, gsl, gs) ∧
      ∀ (t : Nat) (s0 : Int), (freeStarts hmGW gs)[t]? = some s0 →
        ∃ (slot0 : Slot) (row : List Int), hmGW.slots[s0.toNat]? = some slot0 ∧
          m[t]? = some row ∧
          ∀ (jcol : Nat) (g : List Nat × Bool), hmGW.pin_groups[jcol]? = some g →
            row[jcol]? = some (groupCost hmGW.hpwl slot0.pos g.1) ∧
            ((∀ mem ∈ g.1, hmGW.hpwl mem slot0.pos ≠ hungarian_fail) →
              groupCost hmGW.hpwl slot0.pos g.1
                = (g.1.map (fun mem => hmGW.hpwl mem slot0.pos)).sum) ∧
            (∀ (preM : List Nat) (mFail : Nat) (postM : List Nat),
              g.1 = preM ++ mFail :: postM →
              (∀ x ∈ preM, hmGW.hpwl x slot0.pos ≠ hungarian_fail) →
              hmGW.hpwl mFail slot0.pos = hungarian_fail →
              groupCost hmGW.hpwl slot0.pos g.1 = hungarian_fail) :=
  claim_C7 hmGW (by decide) (by decide) (by decide) (by decide)

/- ### The grouped materializer (claim C5) -/

theorem memberOff_zero (rev : Bool) (cnt0 : Int) : memberOff rev cnt0 0 = cnt0 := by
  cases rev <;> simp [memberOff]

theorem memberOff_succ (rev : Bool) (cnt0 : Int) (t : Nat) :
    memberOff rev (if rev then cnt0 - 1 else cnt0 + 1) t = memberOff rev cnt0 (t + 1) := by
  cases rev <;> simp [memberOff] <;> omega

theorem memberLoop_spec (hm : HM) (rev : Bool) (s : Int) :
    ∀ (members : List Nat) (cnt0 : Int) (st : St),
      members.Nodup →
      (∀ (t m0 : Nat), members[t]? = some m0 → m0 < st.pins.length) →
      (∀ t : Nat, t < members.length →
        0 ≤ s + memberOff rev cnt0 t ∧
        s + memberOff rev cnt0 t ≤ (hm.end_slot : Int) ∧
        (s + memberOff rev cnt0 t).toNat < st.slots.length) →
      ∃ st', memberLoop hm rev s members cnt0 st = some st' ∧
        (∀ (t m0 : Nat), members[t]? = some m0 →
          ∃ pin slot, st.pins[m0]? = some pin ∧
            st.slots[(s + memberOff rev cnt0 t).toNat]? = some slot ∧
            st'.pins[m0]? = some { pin with pos := slot.pos, layer := slot.layer } ∧
            st'.slots[(s + memberOff rev cnt0 t).toNat]?
              = some { slot with used := true, blocked := true }) ∧
        (∀ q : Nat, q ∉ members → st'.pins[q]? = st.pins[q]?) ∧
        (∀ m2 : Nat, (∀ t : Nat, t < members.length →
            (s + memberOff rev cnt0 t).toNat ≠ m2) →
          st'.slots[m2]? = st.slots[m2]?) ∧
        st'.nbs = st.nbs - members.length ∧
        st'.pins.length = st.pins.length ∧ st'.slots.length = st.slots.length := by
  intro members
  induction members with
  | nil =>
    intro cnt0 st _ _ _
    refine ⟨st, rfl, ?_, fun _ _ => rfl, fun _ _ => rfl, by simp, rfl, rfl⟩
    intro t m0 h
    simp at h
  | cons m0 rest ih =>
    intro cnt0 st hnodup hpb hoff
    obtain ⟨hm0notin, hnodup'⟩ := List.nodup_cons.mp hnodup
    obtain ⟨h0pos, h0end, h0len⟩ := hoff 0 (by simp)
    rw [memberOff_zero] at h0pos h0end h0len
    have hm0len : m0 < st.pins.length := hpb 0 m0 (by simp)
    obtain ⟨pin, hpin⟩ : ∃ pin, st.pins[m0]? = some pin :=
      ⟨_, List.getElem?_eq_getElem hm0len⟩
    obtain ⟨slot, hslot⟩ : ∃ slot, st.slots[(s + cnt0).toNat]? = some slot :=
      ⟨_, List.getElem?_eq_getElem h0len⟩
    have hguard : s + cnt0 ≤ (hm.end_slot : Int) := h0end
    have hstep : memberLoop hm rev s (m0 :: rest) cnt0 st =
        memberLoop hm rev s rest (if rev then cnt0 - 1 else cnt0 + 1)
          { st with
            pins := st.pins.set m0 { pin with pos := slot.pos, layer := slot.layer }
            out := st.out ++ [{ pin with pos := slot.pos, layer := slot.layer }]
            slots := st.slots.set (s + cnt0).toNat { slot with used := true, blocked := true }
            nbs := st.nbs - 1 } := by
      rw [memberLoop]
      rw [if_neg (by omega)]
      simp only [hslot, hpin]
      rw [if_pos hguard]
    set st1 : St :=
      { st with
        pins := st.pins.set m0 { pin with pos := slot.pos, layer := slot.layer }
        out := st.out ++ [{ pin with pos := slot.pos, layer := slot.layer }]
        slots := st.slots.set (s + cnt0).toNat { slot with used := true, blocked := true }
        nbs := st.nbs - 1 } with hst1
    have hp1len : st1.pins.length = st.pins.length := by simp [hst1]
    have hs1len : st1.slots.length = st.slots.length := by simp [hst1]
    have hp1ne : ∀ q : Nat, q ≠ m0 → st1.pins[q]? = st.pins[q]? := by
      intro q hq
      simp only [hst1]
      exact List.getElem?_set_ne (fun h => hq h.symm)
    have hp1eq : st1.pins[m0]? = some { pin with pos := slot.pos, layer := slot.layer } := by
      simp only [hst1]
      exact List.getElem?_set_self hm0len
    have hs1ne : ∀ m2 : Nat, m2 ≠ (s + cnt0).toNat → st1.slots[m2]? = st.slots[m2]? := by
      intro m2 hq
      simp only [hst1]
      exact List.getElem?_set_ne (fun h => hq h.symm)
    have hs1eq : st1.slots[(s + cnt0).toNat]?
        = some { slot with used := true, blocked := true } := by
      simp only [hst1]
      exact List.getElem?_set_self h0len
    obtain ⟨st', hrun, hhit, hpmiss, hsmiss, hnbs, hplen, hslen⟩ :=
      ih (if rev then cnt0 - 1 else cnt0 + 1) st1 hnodup'
        (by
          intro t q h
          rw [hp1len]
          exact hpb (t + 1) q (by simpa using h))
        (by
          intro t ht
          rw [memberOff_succ]
          rw [hs1len]
          exact hoff (t + 1) (by simp; omega))
    refine ⟨st', by rw [hstep]; exact hrun, ?_, ?_, ?_, ?_, by rw [hplen, hp1len],
      by rw [hslen, hs1len]⟩
    · intro t q hq
      cases t with
      | zero =>
        simp only [List.getElem?_cons_zero, Option.some.injEq] at hq
        subst hq
        rw [memberOff_zero]
        refine ⟨pin, slot, hpin, hslot, ?_, ?_⟩
        · rw [hpmiss _ hm0notin]
          exact hp1eq
        · have hdist : ∀ t2 : Nat, t2 < rest.length →
              (s + memberOff rev (if rev then cnt0 - 1 else cnt0 + 1) t2).toNat
                ≠ (s + cnt0).toNat := by
            intro t2 ht2
            rw [memberOff_succ]
            obtain ⟨hb1, _, _⟩ := hoff (t2 + 1 + 1 - 1) (by simp; omega)
            intro hcontra
            have hne : s + memberOff rev cnt0 (t2 + 1) ≠ s + cnt0 := by
              cases rev <;> simp [memberOff] <;> omega
            have h1 : 0 ≤ s + memberOff rev cnt0 (t2 + 1) := by
              have := hoff (t2 + 1) (by simp; omega)
              exact this.1
            omega
          rw [hsmiss (s + cnt0).toNat hdist]
          exact hs1eq
      | succ t =>
        simp only [List.getElem?_cons_succ] at hq
        obtain ⟨pin2, slot2, hpin2, hslot2, hr1, hr2⟩ := hhit t q hq
        rw [memberOff_succ] at hr2 hslot2
        have hqne : q ≠ m0 := fun h => hm0notin (h ▸ List.getElem?_mem hq)
        rw [hp1ne q hqne] at hpin2
        have htlen : t < rest.length := by
          rcases List.getElem?_eq_some_iff.mp hq with ⟨h, _⟩
          exact h
        have hoffne : (s + memberOff rev cnt0 (t + 1)).toNat ≠ (s + cnt0).toNat := by
          have h1 := (hoff (t + 1) (by simp; omega)).1
          have hne : s + memberOff rev cnt0 (t + 1) ≠ s + cnt0 := by
            cases rev <;> simp [memberOff] <;> omega
          omega
        rw [hs1ne _ hoffne] at hslot2
        exact ⟨pin2, slot2, hpin2, hslot2, hr1, hr2⟩
    · intro q hq
      have hq1 : q ∉ rest := fun h => hq (by simp [h])
      have hq0 : q ≠ m0 := fun h => hq (by simp [h])
      rw [hpmiss q hq1]
      exact hp1ne q hq0
    · intro m2 hm2
      have hm2' : ∀ t : Nat, t < rest.length →
          (s + memberOff rev (if rev then cnt0 - 1 else cnt0 + 1) t).toNat ≠ m2 := by
        intro t ht
        rw [memberOff_succ]
        exact hm2 (t + 1) (by simp; omega)
      rw [hsmiss m2 hm2']
      apply hs1ne m2
      have := hm2 0 (by simp)
      rw [memberOff_zero] at this
      exact fun h => this h.symm
    · rw [hnbs]
      simp only [hst1, List.length_cons]
      push_cast
      ring

theorem groupRowLoop_match (hm : HM) (gs : Int) (col : Nat) (g : List Nat × Bool)
    (s : Int) :
    ∀ (d rem row : Nat) (i : Int) (st : St),
      d < rem →
      nthStride st.slots gs i d = some s →
      (∀ e : Nat, e < d → ∃ a : Nat, hm.assignment[row + e]? = some a ∧ a ≠ col) →
      hm.assignment[row + d]? = some col →
      groupRowLoop hm gs col g rem row i st =
        memberLoop hm (revOrder hm.edge g.2) s g.1
          (if revOrder hm.edge g.2 then (g.1.length : Int) - 1 else 0) st := by
  intro d
  induction d with
  | zero =>
    intro rem row i st hd hscan hmiss hhit
    obtain ⟨rem2, hre⟩ : ∃ rem2, rem = rem2 + 1 := ⟨rem - 1, by omega⟩
    subst hre
    simp only [nthStride] at hscan
    rw [Nat.add_zero] at hhit
    rw [groupRowLoop]
    simp only [hscan, hhit]
    rw [if_neg (by simp)]
  | succ e ih =>
    intro rem row i st hd hscan hmiss hhit
    obtain ⟨rem2, hre⟩ : ∃ rem2, rem = rem2 + 1 := ⟨rem - 1, by omega⟩
    subst hre
    cases hsk : skipStride st.slots gs i with
    | none =>
      simp only [nthStride, hsk] at hscan
      exact Option.noConfusion hscan
    | some j =>
      simp only [nthStride, hsk] at hscan
      obtain ⟨a0, ha0, hane⟩ := hmiss 0 (by omega)
      rw [Nat.add_zero] at ha0
      rw [groupRowLoop]
      simp only [hsk, ha0]
      rw [if_pos hane]
      exact ih rem2 (row + 1) (j + gs) st (by omega) hscan
        (by
          intro e2 he2
          obtain ⟨a2, ha2, hane2⟩ := hmiss (e2 + 1) (by omega)
          exact ⟨a2, by rw [← ha2]; congr 1; omega, hane2⟩)
        (by rw [← hhit]; congr 1; omega)

theorem groupLoop_append (hm : HM) (gs : Int) :
    ∀ (l1 l2 : List (List Nat × Bool)) (c0 : Nat) (st stMid : St),
      groupLoop hm gs l1 c0 st = some stMid →
      groupLoop hm gs (l1 ++ l2) c0 st = groupLoop hm gs l2 (c0 + l1.length) stMid := by
  intro l1
  induction l1 with
  | nil =>
    intro l2 c0 st stMid h
    simp only [groupLoop, Option.some.injEq] at h
    subst h
    simp
  | cons g rest ih =>
    intro l2 c0 st stMid h
    cases hrl : groupRowLoop hm gs c0 g hm.group_slots 0 (hm.begin_slot : Int) st with
    | none =>
      simp only [groupLoop, hrl] at h
      exact Option.noConfusion h
    | some st1 =>
      simp only [groupLoop, hrl] at h
      rw [List.cons_append, groupLoop]
      simp only [hrl]
      rw [ih l2 (c0 + 1) st1 stMid h]
      congr 1
      simp only [List.length_cons]
      omega

/-- C5: for the pin group of size `g` solved to the column whose first
matching row has its block starting at slot `s`, `getAssignmentForGroups`
places the members on exactly slots `s` through `s + g - 1`, marks each of
those slots both used and blocked, decrements the unblocked-slot counter by
`g`, and assigns member `k` to offset `g - 1 - k` when the edge is top or
left and the group's order flag is set, and to offset `k` otherwise; all
other pins and slots are untouched.  Stated for the last group of the
section, `stPre` being the state the earlier groups leave behind. -/
theorem claim_C5 (hm : HM) (gs : Int) (gPins : List Nat) (ord : Bool)
    (pre : List (List Nat × Bool)) (stPre : St) (d : Nat) (s : Int) (rev : Bool)
    (hrev : rev = revOrder hm.edge ord)
    (hmat : hm.hungarian_matrix.length ≠ 0)
    (hsplit : hm.pin_groups = pre ++ [(gPins, ord)])
    (hpre : groupLoop hm gs pre 0 (initSt hm) = some stPre)
    (hd : d < hm.group_slots)
    (hscan : nthStride stPre.slots gs (hm.begin_slot : Int) d = some s)
    (hmiss : ∀ e : Nat, e < d → ∃ a : Nat, hm.assignment[e]? = some a ∧ a ≠ pre.length)
    (hhit : hm.assignment[d]? = some pre.length)
    (hnodup : gPins.Nodup)
    (hpb : ∀ (t m0 : Nat), gPins[t]? = some m0 → m0 < stPre.pins.length)
    (hoff : ∀ off : Nat, off < gPins.length →
      0 ≤ s + (off : Int) ∧ s + (off : Int) ≤ (hm.end_slot : Int) ∧
        (s + (off : Int)).toNat < stPre.slots.length) :
    ∃ st' : St, getAssignmentForGroups hm gs = some st' ∧
      (∀ (k pidx : Nat), gPins[k]? = some pidx →
        ∃ (pin : IOPin) (slot : Slot),
          stPre.pins[pidx]? = some pin ∧
          stPre.slots[(s + ((if rev then gPins.length - 1 - k else k : Nat) : Int)).toNat]?
            = some slot ∧
          st'.pins[pidx]? = some { pin with pos := slot.pos, layer := slot.layer } ∧
          st'.slots[(s + ((if rev then gPins.length - 1 - k else k : Nat) : Int)).toNat]?
            = some { slot with used := true, blocked := true }) ∧
      (∀ off : Nat, off < gPins.length →
        ∃ slot : Slot, st'.slots[(s + (off : Int)).toNat]? = some slot ∧
          slot.used = true ∧ slot.blocked = true) ∧
      (∀ m : Nat, (∀ off : Nat, off < gPins.length → (s + (off : Int)).toNat ≠ m) →
        st'.slots[m]? = stPre.slots[m]?) ∧
      (∀ q : Nat, q ∉ gPins → st'.pins[q]? = stPre.pins[q]?) ∧
      st'.nbs = stPre.nbs - gPins.length := by
  have hmo : ∀ t : Nat, t < gPins.length →
      memberOff rev (if rev then (gPins.length : Int) - 1 else 0) t
        = ((if rev then gPins.length - 1 - t else t : Nat) : Int) := by
    intro t ht
    cases rev <;> simp [memberOff] <;> omega
  have hrange : ∀ t : Nat, t < gPins.length →
      ∃ off : Nat, off < gPins.length ∧
        memberOff rev (if rev then (gPins.length : Int) - 1 else 0) t = (off : Int) := by
    intro t ht
    cases rev with
    | false => exact ⟨t, ht, by simp [memberOff]⟩
    | true =>
      refine ⟨gPins.length - 1 - t, by omega, ?_⟩
      simp [memberOff]
      omega
  have hcover : ∀ off : Nat, off < gPins.length →
      ∃ t : Nat, t < gPins.length ∧
        memberOff rev (if rev then (gPins.length : Int) - 1 else 0) t = (off : Int) := by
    intro off hofflt
    cases rev with
    | false => exact ⟨off, hofflt, by simp [memberOff]⟩
    | true =>
      refine ⟨gPins.length - 1 - off, by omega, ?_⟩
      simp [memberOff]
      omega
  obtain ⟨st', hrun, hhitM, hpmissM, hsmissM, hnbsM, _, _⟩ :=
    memberLoop_spec hm rev s gPins (if rev then (gPins.length : Int) - 1 else 0) stPre
      hnodup hpb
      (by
        intro t ht
        obtain ⟨off, ho1, ho2⟩ := hrange t ht
        rw [ho2]
        exact hoff off ho1)
  have hrl : groupRowLoop hm gs pre.length (gPins, ord) hm.group_slots 0
      (hm.begin_slot : Int) stPre = some st' := by
    rw [groupRowLoop_match hm gs pre.length (gPins, ord) s d hm.group_slots 0
      (hm.begin_slot : Int) stPre hd hscan
      (by intro e he; simpa using hmiss e he) (by simpa using hhit)]
    rw [hrev] at hrun
    exact hrun
  have hga : getAssignmentForGroups hm gs = some st' := by
    rw [getAssignmentForGroups, if_neg hmat, hsplit]
    rw [groupLoop_append hm gs pre [(gPins, ord)] 0 (initSt hm) stPre hpre]
    rw [Nat.zero_add]
    simp only [groupLoop, hrl]
  refine ⟨st', hga, ?_, ?_, ?_, hpmissM, hnbsM⟩
  · intro k pidx hk
    have hklen : k < gPins.length := by
      rcases List.getElem?_eq_some_iff.mp hk with ⟨h, _⟩
      exact h
    obtain ⟨pin, slot, h1, h2, h3, h4⟩ := hhitM k pidx hk
    rw [hmo k hklen] at h2 h4
    exact ⟨pin, slot, h1, h2, h3, h4⟩
  · intro off hofflt
    obtain ⟨t, htlt, hmt⟩ := hcover off hofflt
    obtain ⟨pidx, hpidx⟩ : ∃ pidx, gPins[t]? = some pidx :=
      ⟨_, List.getElem?_eq_getElem htlt⟩
    obtain ⟨pin, slot, _, _, _, h4⟩ := hhitM t pidx hpidx
    rw [hmt] at h4
    exact ⟨_, h4, rfl, rfl⟩
  · intro m hmhyp
    apply hsmissM
    intro t htlt
    obtain ⟨off, hofflt, heq⟩ := hrange t htlt
    rw [heq]
    exact hmhyp off hofflt

theorem claim_C5_witness :
    ∃ st' : St, getAssignmentForGroups hmGW2 2 = some st' ∧
      (∀ (k pidx : Nat), ([0, 1] : List Nat)[k]? = some pidx →
        ∃ (pin : IOPin) (slot : Slot),
          (initSt hmGW2).pins[pidx]? = some pin ∧
          (initSt hmGW2).slots[((2 : Int) +
              ((if true then ([0, 1] : List Nat).length - 1 - k else k : Nat) : Int)).toNat]?
            = some slot ∧
          st'.pins[pidx]? = some { pin with pos := slot.pos, layer := slot.layer } ∧
          st'.slots[((2 : Int) +
              ((if true then ([0, 1] : List Nat).length - 1 - k else k : Nat) : Int)).toNat]?
            = some { slot with used := true, blocked := true }) ∧
      (∀ off : Nat, off < ([0, 1] : List Nat).length →
        ∃ slot : Slot, st'.slots[((2 : Int) + (off : Int)).toNat]? = some slot ∧
          slot.used = true ∧ slot.blocked = true) ∧
      (∀ m : Nat, (∀ off : Nat, off < ([0, 1] : List Nat).length →
          ((2 : Int) + (off : Int)).toNat ≠ m) →
        st'.slots[m]? = (initSt hmGW2).slots[m]?) ∧
      (∀ q : Nat, q ∉ ([0, 1] : List Nat) → st'.pins[q]? = (initSt hmGW2).pins[q]?) ∧
      st'.nbs = (initSt hmGW2).nbs - ([0, 1] : List Nat).length :=
  claim_C5 hmGW2 2 [0, 1] true [] (initSt hmGW2) 1 2 true
    (by decide) (by decide) rfl rfl (by decide) (by decide)
    (by
      intro e he
      interval_cases e
      exact ⟨99, rfl, by decide⟩)
    rfl
    (by decide)
    (by
      intro t m0 h
      have hmem : m0 ∈ ([0, 1] : List Nat) := List.getElem?_mem h
      have hlen : (initSt hmGW2).pins.length = 3 := by decide
      rw [hlen]
      simp at hmem
      rcases hmem with h1 | h1 <;> omega)
    (by
      intro off hofflt
      simp at hofflt
      interval_cases off <;> exact ⟨by decide, by decide, by decide⟩)
